import Mathlib

/-!
Verification development for the translation resolution engine of
`@motioneffector/i18n` (source of record: `dist/index.js`).

The engine is embedded shallowly:

* JavaScript values appearing in translation trees are modelled by the
  mutual inductive family `JsVal` / `JsArr` / `JsFields`.  A JavaScript
  object is a bare insertion-ordered map with unique string keys, modelled
  as the ordered field list `JsFields`; `vundef` models the `undefined`
  sentinel stored at a present key, `vnull` models `null`.
* Each function of the source is translated one-to-one:
  `wFields` embeds the clone function `w`, `mergeInto`/`OFields` embed the
  merge function `O`, `isPluralFields` embeds the plural-node test `T`,
  `vResolve` embeds the plain resolver `v`, `interpolate` embeds the
  interpolator `k`, `pluralCat` embeds the category selector `I`,
  `aResolve` embeds the plural resolver `A`, and `translate` embeds the
  translate pipeline `_`.
* The host plural categorizer (`Intl.PluralRules(locale).select(n)`) is an
  external collaborator; it is a parameter `sel : String → Int → String`.
  Counts are modelled as integers (the claims under verification use
  integral counts only).
* Listener sets are modelled by their sizes (`missN`, `changeN`); a
  notification is recorded as the list of `(argument, argument)` pairs
  delivered, one per registered listener, in registration order.  Listener
  exceptions are swallowed by the source (`try`/`catch` around each call),
  so they do not affect the state or the result.
* The asynchronous load coordinator is modelled by its synchronous steps
  on the JavaScript event loop: `loadLocaleStep` is the synchronous prefix
  of `loadLocale` (up to and including the synchronous invocation of the
  injected loader and registration of the in-flight handle), and
  `settleLoad` is the continuation that runs when the loader settles.
  Handles are numbered; `loaderCalls` counts loader invocations.
-/

/-! ### JavaScript values -/

mutual
inductive JsVal : Type where
  | vstr : String → JsVal
  | vnum : Int → JsVal
  | vbool : Bool → JsVal
  | vnull : JsVal
  | vundef : JsVal
  | varr : JsArr → JsVal
  | vobj : JsFields → JsVal

inductive JsArr : Type where
  | anil : JsArr
  | acons : JsVal → JsArr → JsArr

inductive JsFields : Type where
  | fnil : JsFields
  | fcons : String → JsVal → JsFields → JsFields
end

/-- Build a field list from a Lean list (fields in insertion order). -/
def fieldsOf : List (String × JsVal) → JsFields
  | [] => .fnil
  | (k, v) :: r => .fcons k v (fieldsOf r)

/-- Own-property read, `Object.prototype.hasOwnProperty.call(l, a) ? l[a] : undefined`
split into an `Option`: `none` means the key is absent, `some .vundef` means the
key is present with the `undefined` value.  First match wins; objects built by
the engine have unique keys. -/
def getOwn : JsFields → String → Option JsVal
  | .fnil, _ => none
  | .fcons k v r, a => if k = a then some v else getOwn r a

/-- `Object.keys`, in insertion order. -/
def fKeys : JsFields → List String
  | .fnil => []
  | .fcons k _ r => k :: fKeys r

/-- JavaScript property assignment `t[k] = v` on a bare object: an existing key
is overwritten in place, a new key is appended. -/
def setField : JsFields → String → JsVal → JsFields
  | .fnil, k, v => .fcons k v .fnil
  | .fcons k' v' r, k, v =>
    if k' = k then .fcons k' v r else .fcons k' v' (setField r k v)

/-- The forbidden structural-identity keys of `w` and `O`
(`new Set(["__proto__", "constructor", "prototype"])`). -/
def forbiddenKeys : List String := ["__proto__", "constructor", "prototype"]

/-- The closed plural-category label set of `T`
(`["zero", "one", "two", "few", "many", "other"]`). -/
def pluralCats : List String := ["zero", "one", "two", "few", "many", "other"]

/-- Embeds `T`: a value already known to be a non-array object is a Plural Node
iff it has at least one own key and every own key is a plural-category label.
(`T` itself first rejects non-objects via `typeof`; call sites below match on
`vobj` first, and `T` is false on every other constructor.) -/
def isPluralFields (l : JsFields) : Bool :=
  !(fKeys l).isEmpty && (fKeys l).all (fun o => pluralCats.contains o)

/-! ### Structural merge engine: `w` (clone) and `O` (merge) -/

/-- Embeds the clone function `w`: build a fresh bare object; skip forbidden
keys and keys whose value is `undefined`; recursively clone nested non-array
objects; copy every other value as is. -/
def wFields : JsFields → JsFields
  | .fnil => .fnil
  | .fcons o r rest =>
    if forbiddenKeys.contains o then wFields rest
    else match r with
      | .vundef => wFields rest
      | .vobj l => .fcons o (.vobj (wFields l)) (wFields rest)
      | v => .fcons o v (wFields rest)

/-- Embeds the first loop of `O`: copy the target's own keys into the fresh
bare result, skipping forbidden keys and `undefined` values (values copied
by reference, without recursive cloning). -/
def filterTgt : JsFields → JsFields
  | .fnil => .fnil
  | .fcons r a rest =>
    if forbiddenKeys.contains r then filterTgt rest
    else match a with
      | .vundef => filterTgt rest
      | v => .fcons r v (filterTgt rest)

/-- Embeds the second loop of `O` over the source fields, acting on the
accumulated target `t`.  A nested recursion `O(s, a)` of the source appears
here as `mergeInto (filterTgt s) l`, which is definitionally `OFields s l`. -/
def mergeInto : JsFields → JsFields → JsFields
  | t, .fnil => t
  | t, .fcons r a rest =>
    if forbiddenKeys.contains r then mergeInto t rest
    else match a with
      | .vundef => mergeInto t rest
      | .vobj l =>
        if isPluralFields l then mergeInto (setField t r (.vobj l)) rest
        else match getOwn t r with
          | some (.vobj s) =>
            mergeInto (setField t r (.vobj (mergeInto (filterTgt s) l))) rest
          | _ => mergeInto (setField t r (.vobj (wFields l))) rest
      | v => mergeInto (setField t r v) rest

/-- Embeds the merge function `O`: first loop (`filterTgt`), then the second
loop over the source (`mergeInto`). -/
def OFields (e n : JsFields) : JsFields := mergeInto (filterTgt e) n

/-! ### Shape predicates used by the theorems -/

/-- All values of the field list are plain strings (the data-model shape of a
Plural Node's slots). -/
def strVals : JsFields → Bool
  | .fnil => true
  | .fcons _ v r =>
    (match v with
     | .vstr _ => true
     | _ => false) && strVals r

mutual
/-- Well-formed translation value per the data model: a display string, or a
tree/Plural-Node object (a Plural Node — an object all of whose keys are
category labels — must have string slots). -/
def wfVal : JsVal → Bool
  | .vstr _ => true
  | .vobj l => (!isPluralFields l || strVals l) && wfFields l
  | _ => false

/-- Well-formed translation tree (every value well formed). -/
def wfFields : JsFields → Bool
  | .fnil => true
  | .fcons _ v r => wfVal v && wfFields r
end

mutual
/-- No forbidden structural-identity key occurs at any depth. -/
def cleanVal : JsVal → Bool
  | .vobj l => cleanFields l
  | .varr xs => cleanArr xs
  | _ => true

def cleanArr : JsArr → Bool
  | .anil => true
  | .acons v r => cleanVal v && cleanArr r

def cleanFields : JsFields → Bool
  | .fnil => true
  | .fcons k v r => !forbiddenKeys.contains k && cleanVal v && cleanFields r
end

mutual
/-- Modelled from the spec: the "deep-equal to T except that it contains none
of the forbidden structural-identity keys" reference transformation
(section 4.2 / 8 of the spec): drop forbidden keys at every depth, keep
everything else unchanged. -/
def eraseVal : JsVal → JsVal
  | .vobj l => .vobj (eraseFields l)
  | v => v

/-- Spec-side forbidden-key erasure on a field list. -/
def eraseFields : JsFields → JsFields
  | .fnil => .fnil
  | .fcons k v r =>
    if forbiddenKeys.contains k then eraseFields r
    else .fcons k (eraseVal v) (eraseFields r)
end

/-! ### Key path resolution -/

/-- JavaScript `"…".split(".")` (character split; `"".split(".") = [""]`). -/
def splitDotAux : List Char → List Char → List String
  | [], acc => [⟨acc.reverse⟩]
  | c :: rest, acc =>
    if c = '.' then ⟨acc.reverse⟩ :: splitDotAux rest []
    else splitDotAux rest (c :: acc)

/-- Dot-notation key split, as used by `v` and `A`. -/
def splitDot (s : String) : List String := splitDotAux s.data []

/-- The JavaScript whitespace class: the characters matched by `\s` in the
interpolation pattern and trimmed by `String.prototype.trim` (whitespace
plus line terminators). -/
def isWsChar (c : Char) : Bool :=
  c = ' ' || c = '\t' || c = '\n' || c = '\r' || c = '\x0b' || c = '\x0c' ||
  c = '\u00A0' || c = '\u1680' || (0x2000 ≤ c.toNat && c.toNat ≤ 0x200A) ||
  c = '\u2028' || c = '\u2029' || c = '\u202F' || c = '\u205F' ||
  c = '\u3000' || c = '\uFEFF'

/-- JavaScript `String.prototype.trim`. -/
def jsTrim (s : String) : String :=
  ⟨((s.data.dropWhile isWsChar).reverse.dropWhile isWsChar).reverse⟩

/-- Locale Registry read (`c.get(e)`); the registry is an insertion-ordered
map with unique keys. -/
def getReg : List (String × JsFields) → String → Option JsFields
  | [], _ => none
  | (k, t) :: r, loc => if k = loc then some t else getReg r loc

/-- Registry write (`c.set(e, v)`): overwrite in place or append. -/
def setReg : List (String × JsFields) → String → JsFields → List (String × JsFields)
  | [], k, v => [(k, v)]
  | (k', v') :: r, k, v =>
    if k' = k then (k, v) :: r else (k', v') :: setReg r k v

/-- The walk loop of `v`: at each segment the current node must be a non-array
object that is not a Plural Node and must own the segment with a defined
value; after all segments the terminal must be a string. -/
def vWalk : JsVal → List String → Option String
  | r, [] =>
    match r with
    | .vstr s => some s
    | _ => none
  | r, a :: rest =>
    match r with
    | .vobj l =>
      if isPluralFields l then none
      else match getOwn l a with
        | none => none
        | some .vundef => none
        | some x => vWalk x rest
    | _ => none

/-- Embeds the plain resolver `v`. -/
def vResolve (c : List (String × JsFields)) (loc key : String) : Option String :=
  match getReg c loc with
  | none => none
  | some t => vWalk (.vobj t) (splitDot key)

/-! ### Plural resolution -/

/-- Interpolation parameter values (`InterpolationParams` of the source:
string, number, boolean, null or undefined). -/
inductive PVal : Type where
  | pstr : String → PVal
  | pnum : Int → PVal
  | pbool : Bool → PVal
  | pnull : PVal
  | pundef : PVal
deriving Repr, DecidableEq

/-- A `params` argument: `none` models an absent (`undefined`) or `null`
argument, which the pipeline treats identically; field order is the
object's insertion order. -/
def Params : Type := Option (List (String × PVal))

/-- First-match parameter lookup (parameter objects have unique keys). -/
def pLookup : List (String × PVal) → String → Option PVal
  | [], _ => none
  | (k, v) :: r, a => if k = a then some v else pLookup r a

/-- The numeric `count` of `params`, when present
(`params && "count" in params && typeof params.count == "number"`). -/
def getCount (params : Params) : Option Int :=
  match params with
  | none => none
  | some l =>
    match pLookup l "count" with
    | some (.pnum n) => some n
    | _ => none

/-- Embeds `I`: a count of exactly zero selects the literal `"zero"` label
without consulting the host categorizer; any other count is categorized by
the host on its absolute value. -/
def pluralCat (sel : String → Int → String) (loc : String) (n : Int) : String :=
  if n = 0 then "zero" else sel loc |n|

/-- A property read that treats a present-but-`undefined` value as absent
(the `x !== void 0` guards of `A`). -/
def definedGet (l : JsFields) (k : String) : Option JsVal :=
  match getOwn l k with
  | some .vundef => none
  | o => o

/-- The walk loop of `A` (no Plural-Node short-circuit; the terminal may be
any value). -/
def aWalk : JsVal → List String → Option JsVal
  | r, [] => some r
  | r, a :: rest =>
    match r with
    | .vobj l =>
      match getOwn l a with
      | none => none
      | some .vundef => none
      | some x => aWalk x rest
    | _ => none

/-- Embeds the plural resolver `A`.  The result is `none` when `A` returns a
nullish value (`null`, or the `undefined` of an absent `other` slot) — the
pipeline treats those identically via `??` followed by the plain resolver. -/
def aResolve (sel : String → Int → String) (c : List (String × JsFields))
    (loc key : String) (params : Params) : Option JsVal :=
  match getReg c loc with
  | none => none
  | some t =>
    match aWalk (.vobj t) (splitDot key) with
    | none => none
    | some a =>
      match a with
      | .vobj s =>
        if isPluralFields s then
          match getCount params with
          | none => none
          | some n =>
            let u := pluralCat sel loc n
            match (if u = "zero" then definedGet s "zero" else none) with
            | some z => some z
            | none =>
              match definedGet s u with
              | some d => some d
              | none => definedGet s "other"
        else none
      | _ => none

/-! ### Interpolation -/

/-- Stringification of a supplied parameter
(`r == null ? "" : String(r)`): null and undefined become the empty string,
booleans their literal textual form, numbers their decimal form, strings
pass through. -/
def stringifyP : PVal → String
  | .pstr s => s
  | .pnum n => toString n
  | .pbool true => "true"
  | .pbool false => "false"
  | .pnull => ""
  | .pundef => ""

/-- The error values the engine can surface: `TypeError`, plain `Error`,
the `I18nError` subclass `D`, and the host's `SyntaxError` raised by
`new RegExp` on an ungrammatical pattern. -/
inductive JsErr : Type where
  | typeError : String → JsErr
  | jsError : String → JsErr
  | i18nError : String → JsErr
  | hostSyntaxError : String → JsErr
deriving Repr, DecidableEq

/-- Characters with a special meaning in a regular-expression pattern.  `k`
splices the parameter name into its pattern unescaped, so a name containing
none of these is matched literally by the host engine. -/
def regexMeta (c : Char) : Bool :=
  c = '\\' || c = '^' || c = '$' || c = '.' || c = '|' || c = '?' || c = '*' ||
  c = '+' || c = '(' || c = ')' || c = '[' || c = ']' || c = '{' || c = '}'

/-- Parameter names of the modelled regex fragment: every character is
regex-literal and outside the `\s` class.  For such a name the source's
`new RegExp("\\{\\{\\s*" + name + "\\s*\\}\\}", "g")` compiles to exactly the
literal placeholder pattern that `phMatch` scans for (the `\s*` runs are
delimited deterministically because the neighbouring literal characters are
non-whitespace). -/
def simpleName (o : String) : Bool :=
  o.data.all (fun c => !regexMeta c && !isWsChar c)

/-- Group-nesting check over a name with no escapes or character classes. -/
def parenBalancedAux : Nat → List Char → Bool
  | d, [] => d = 0
  | d, c :: rest =>
    if c = '(' then parenBalancedAux (d + 1) rest
    else if c = ')' then (if d = 0 then false else parenBalancedAux (d - 1) rest)
    else parenBalancedAux d rest

/-- A decidable condition under which the source's `new RegExp` is guaranteed
to throw a `SyntaxError`: when the name contains no escape characters and no
character classes, unbalanced group parentheses make the spliced pattern
`\{\{\s*name\s*\}\}` ungrammatical (an unterminated or unmatched group). -/
def regexInvalidName (o : String) : Bool :=
  o.data.all (fun c => !(c = '\\' || c = '[' || c = ']')) && !parenBalancedAux 0 o.data

/-- The host regular-expression engine as `k` consults it for parameter names
outside the modelled fragment (a grammatical pattern containing
metacharacters, or an ungrammatical one not detected by `regexInvalidName`):
given the template, the raw name and the stringified replacement, it returns
the replaced string or the thrown error.  Like the plural categorizer, this
is an external collaborator of the embedding; a theorem quantifying over it
holds in particular for the actual host engine. -/
def RegexHost : Type := String → String → String → Except JsErr String

/-- The backquote character (code 96), written by code point. -/
def backquoteChar : Char := Char.ofNat 96

/-- The single-quote character (code 39), written by code point. -/
def squoteChar : Char := Char.ofNat 39

/-- ECMAScript GetSubstitution for a pattern with no capture groups, as
`String.prototype.replace` applies it to a string replacement: `$$` produces
a dollar sign, `$&` the matched substring, dollar-backquote the portion of
the input before the match, dollar-quote the portion after it; every other
sequence is kept literally. -/
def dollarSubst (matched before after : List Char) : List Char → List Char
  | [] => []
  | '$' :: rest =>
    match rest with
    | [] => ['$']
    | d :: rest2 =>
      if d = '$' then '$' :: dollarSubst matched before after rest2
      else if d = '&' then matched ++ dollarSubst matched before after rest2
      else if d = backquoteChar then before ++ dollarSubst matched before after rest2
      else if d = squoteChar then after ++ dollarSubst matched before after rest2
      else '$' :: dollarSubst matched before after (d :: rest2)
  | c :: rest => c :: dollarSubst matched before after rest

/-- Strip a literal character run: if `pat` is an initial run of `l`, return
the remainder. -/
def stripLit : List Char → List Char → Option (List Char)
  | [], l => some l
  | _ :: _, [] => none
  | c :: cs, d :: ds => if c = d then stripLit cs ds else none

/-- Match the placeholder pattern `\{\{\s*name\s*\}\}` at the head of `l` for
a literal-fragment name, returning the matched substring together with the
remainder after it. -/
def phMatch (name : List Char) (l : List Char) : Option (List Char × List Char) :=
  match l with
  | '{' :: '{' :: r =>
    match stripLit name (r.dropWhile isWsChar) with
    | none => none
    | some r2 =>
      match r2.dropWhile isWsChar with
      | '}' :: '}' :: tail =>
        some ('{' :: '{' :: (r.takeWhile isWsChar ++ name ++ r2.takeWhile isWsChar
          ++ ['}', '}']), tail)
      | _ => none
  | _ => none

/-- One global-replace pass (`template.replace(re, s)` with the `g` flag) for
a literal-fragment name: scan left to right; at a match emit the replacement
expanded by GetSubstitution (`dollarSubst`) and continue after the matched
segment (the expansion itself is not rescanned); otherwise copy one
character.  `preRev` is the reversed portion of the input already scanned
(the source of GetSubstitution's before-match portion); `fuel` bounds the
recursion — every step consumes at least one input character, so
`fuel = input length` computes the full pass. -/
def replaceGo (name val : List Char) : Nat → List Char → List Char → List Char
  | 0, _, l => l
  | _ + 1, _, [] => []
  | f + 1, preRev, c :: rest =>
    match phMatch name (c :: rest) with
    | some (matched, tail) =>
      dollarSubst matched preRev.reverse tail val
        ++ replaceGo name val f (matched.reverse ++ preRev) tail
    | none => c :: replaceGo name val f (c :: preRev) rest

/-- Global placeholder replacement of one parameter with a literal-fragment
name. -/
def replacePH (template : String) (name val : String) : String :=
  ⟨replaceGo name.data val.data template.data.length [] template.data⟩

/-- One iteration of `k`'s loop:
`t.replace(new RegExp("\\{\\{\\s*" + o + "\\s*\\}\\}", "g"), s)`.  A
literal-fragment name compiles to the literal placeholder pattern
(`replacePH` with GetSubstitution); a name that makes the pattern
ungrammatical raises the host's `SyntaxError` from `new RegExp`; any other
name is delegated to the host engine `rx`. -/
def replaceStep (rx : RegexHost) (t o s : String) : Except JsErr String :=
  if simpleName o then .ok (replacePH t o s)
  else if regexInvalidName o then .error (.hostSyntaxError "Invalid regular expression")
  else rx t o s

/-- The loop of `k` over the parameter entries, in insertion order; a thrown
error aborts the loop and escapes. -/
def interpLoop (rx : RegexHost) : List (String × PVal) → String → Except JsErr String
  | [], t => .ok t
  | (o, r) :: rest, t =>
    match replaceStep rx t o (stringifyP r) with
    | .error err => .error err
    | .ok t2 => interpLoop rx rest t2

/-- Embeds the interpolator `k`: with no parameter object (absent or `null`)
the template is returned unchanged; otherwise each parameter entry is
replaced globally, in insertion order, with its stringified value, through
the host regex replace — which can throw. -/
def interpolateE (rx : RegexHost) (e : String) (params : Params) : Except JsErr String :=
  match params with
  | none => .ok e
  | some l => interpLoop rx l e

/-- All parameter names lie in the modelled literal regex fragment. -/
def paramsNamesSimple : Params → Bool
  | none => true
  | some l => l.all (fun p => simpleName p.1)

/-! ### Session state and the translate pipeline -/

/-- The `missingBehavior` enum (`"key" | "empty" | "throw"`); `key` is the
construction default. -/
inductive MissingBehavior : Type where
  | key : MissingBehavior
  | empty : MissingBehavior
  | throw : MissingBehavior
deriving Repr, DecidableEq

/-- The per-instance closure state of `createI18n`:
`c` the Locale Registry, `f` the current locale, `p` the `fallbackLocale`
option, `j` the missing behavior, `missN`/`changeN` the sizes of the
missing/change listener sets, `m` the Loaded-Locale Marker Set (insertion
order), `b` the In-Flight Load Table (locale to handle number),
`hasLoader` whether a `loadPath` was configured, `loaderCalls` the number of
loader invocations so far, `nextH` the next fresh handle number. -/
structure I18nState : Type where
  c : List (String × JsFields)
  f : String
  p : Option String
  j : MissingBehavior
  missN : Nat
  changeN : Nat
  m : List String
  b : List (String × Nat)
  hasLoader : Bool
  loaderCalls : Nat
  nextH : Nat

/-- The fallback locale as the source consults it: every use of `p` in the
source is truthiness-guarded (`p && …`, `!p`), so an empty-string
`fallbackLocale` behaves as no fallback. -/
def fbOpt (st : I18nState) : Option String :=
  match st.p with
  | none => none
  | some s => if s = "" then none else some s

/-- One locale's resolution attempt of the pipeline
(`o && (r = A(loc, t, n)), r ?? (r = v(loc, t))`): plural resolution first
when a numeric `count` is present, then the plain resolver.  After this step
the nullish distinction is gone: `A`'s `null` and `undefined` results both
fall through to `v`. -/
def resolveIn (sel : String → Int → String) (st : I18nState) (loc t : String)
    (params : Params) : Option JsVal :=
  match (if (getCount params).isSome then aResolve sel st.c loc t params else none) with
  | some r => some r
  | none => (vResolve st.c loc t).map .vstr

/-- The notification delivered to every registered missing listener, in
registration order: `(trimmed key, current locale)`. -/
def missEvents (st : I18nState) (t : String) : List (String × String) :=
  List.replicate st.missN (t, st.f)

/-- Embeds the translate pipeline `_` for a string key and a valid `params`
shape (the `TypeError` guards for a non-string key or an array `params` are
outside this typed model).  `rx` is the host regex engine consulted by the
interpolator.  Returns the result — `Except` carries the thrown `I18nError`
of the `"throw"` behavior, any error thrown by the interpolation step
(`new RegExp` compilation included), and the `TypeError` that `k(r, n)`
would raise were a resolved template not a string — together with the
missing-listener notifications fired during the call (the pipeline notifies
before interpolating, so the notifications fire even when interpolation
throws). -/
def translateKey (rx : RegexHost) (sel : String → Int → String) (st : I18nState)
    (key : String) (params : Params) : Except JsErr String × List (String × String) :=
  let t := jsTrim key
  if t = "" then (.ok "", [])
  else
    let rCur := resolveIn sel st st.f t params
    let foundInCurrent := rCur.isSome
    let r := match rCur with
      | some v => some v
      | none =>
        match fbOpt st with
        | some fb => resolveIn sel st fb t params
        | none => none
    match r with
    | none =>
      (match st.j with
       | .empty => .ok ""
       | .throw => .error (.i18nError ("Missing translation: " ++ t))
       | .key => .ok t,
       missEvents st t)
    | some (.vstr s) =>
      (interpolateE rx s params,
       if !foundInCurrent && (fbOpt st).isSome then missEvents st t else [])
    | some _ =>
      (.error (.typeError "r.replace is not a function"),
       if !foundInCurrent && (fbOpt st).isSome then missEvents st t else [])

/-! ### Locale switching -/

/-- Embeds `setLocale` for a string argument: reject an empty (trimmed)
locale; no-op when equal to the current locale; reject an unknown locale when
the registry is non-empty and no fallback is configured; otherwise commit and
notify change listeners with `(new, previous)` in registration order. -/
def setLocale (st : I18nState) (e : String) : Except JsErr I18nState × List (String × String) :=
  if jsTrim e = "" then (.error (.typeError "locale cannot be empty"), [])
  else if e = st.f then (.ok st, [])
  else
    if (getReg st.c e).isNone && !st.c.isEmpty && (fbOpt st).isNone then
      (.error (.jsError ("No translations available for locale '" ++ e ++ "'")), [])
    else
      (.ok { st with f := e }, List.replicate st.changeN (e, st.f))

/-! ### Translation management and the async load coordinator -/

/-- `Set.add` on the Loaded-Locale Marker Set (insertion-ordered, no
duplicates). -/
def addMark (m : List String) (e : String) : List String :=
  if m.contains e then m else m ++ [e]

/-- Embeds the state effect of `addTranslations(e, n)` after its argument
guards (string, non-empty, object — outside this typed model): merge into an
existing registry entry, or clone-and-insert a fresh entry and add the locale
to the Loaded-Locale Marker Set. -/
def addTranslationsStep (st : I18nState) (e : String) (n : JsFields) : I18nState :=
  match getReg st.c e with
  | some t => { st with c := setReg st.c e (OFields t n) }
  | none => { st with c := setReg st.c e (wFields n), m := addMark st.m e }

/-- In-flight table read (`b.get(e)` after `b.has(e)`). -/
def getInflight : List (String × Nat) → String → Option Nat
  | [], _ => none
  | (k, h) :: r, e => if k = e then some h else getInflight r e

/-- In-flight table write (`b.set(e, o)`). -/
def setInflight : List (String × Nat) → String → Nat → List (String × Nat)
  | [], e, h => [(e, h)]
  | (k, h') :: r, e, h =>
    if k = e then (e, h) :: r else (k, h') :: setInflight r e h

/-- In-flight table delete (`b.delete(e)`). -/
def removeInflight (b : List (String × Nat)) (e : String) : List (String × Nat) :=
  b.filter (fun p => !(p.1 = e))

/-- The synchronous result of a `loadLocale` call: the synchronous
`loadPath not configured` throw, an existing in-flight handle, an immediate
resolution for an already-marked locale, or a freshly started load. -/
inductive LoadStart : Type where
  | noLoader : LoadStart
  | inflight : Nat → LoadStart
  | immediate : LoadStart
  | started : Nat → LoadStart
deriving Repr, DecidableEq

/-- Embeds the synchronous segment of `loadLocale(e, {forceReload})`: without
forcing, an in-flight load's handle is returned as is and an already-marked
locale resolves immediately; otherwise the loader is invoked (synchronously,
at the start of the async body) and a fresh handle is registered in the
in-flight table. -/
def loadLocaleStep (st : I18nState) (e : String) (force : Bool) : LoadStart × I18nState :=
  if !st.hasLoader then (.noLoader, st)
  else
    match (if force then none else getInflight st.b e) with
    | some h => (.inflight h, st)
    | none =>
      if !force && st.m.contains e then (.immediate, st)
      else
        (.started st.nextH,
         { st with b := setInflight st.b e st.nextH,
                   loaderCalls := st.loaderCalls + 1,
                   nextH := st.nextH + 1 })

/-- How a started load settles: the loader resolved with a non-array object,
the loader resolved with an invalid (non-object or array) value, or the
loader rejected. -/
inductive LoadOutcome : Type where
  | success : JsFields → LoadOutcome
  | invalidData : LoadOutcome
  | failure : LoadOutcome

/-- Embeds the continuation of a started load: on valid data,
`addTranslations` then mark the locale loaded; on every outcome the `finally`
clause removes the in-flight entry. -/
def settleLoad (st : I18nState) (e : String) (out : LoadOutcome) : I18nState :=
  match out with
  | .success data =>
    let st1 := addTranslationsStep st e data
    let st2 := { st1 with m := addMark st1.m e }
    { st2 with b := removeInflight st2.b e }
  | .invalidData => { st with b := removeInflight st.b e }
  | .failure => { st with b := removeInflight st.b e }

/-- Embeds `isLocaleLoaded(e)`: membership in the Locale Registry
(`c.has(e)`), not in the Loaded-Locale Marker Set. -/
def isLocaleLoaded (st : I18nState) (e : String) : Bool :=
  (getReg st.c e).isSome

/-- Embeds the auto-load guard of `setLocaleAsync`
(`!m.has(e) && g && await y.loadLocale(e)`): whether an automatic load is
attempted before the synchronous switch. -/
def autoLoadAttempted (st : I18nState) (e : String) : Bool :=
  !st.m.contains e && st.hasLoader

/-- Embeds the construction-time state after the argument guards of
`createI18n` (non-empty string `defaultLocale`, object shapes): each
`translations` entry is cloned into the registry; the Loaded-Locale Marker
Set starts empty (construction entries are never marked); the missing
behavior defaults to `"key"`. -/
def createI18nState (defaultLocale : String) (fallbackLocale : Option String)
    (translations : List (String × JsFields)) (loaderConfigured : Bool) : I18nState :=
  { c := translations.foldl (fun acc q => setReg acc q.1 (wFields q.2)) []
    f := defaultLocale
    p := fallbackLocale
    j := .key
    missN := 0
    changeN := 0
    m := []
    b := []
    hasLoader := loaderConfigured
    loaderCalls := 0
    nextH := 0 }

/-! ### Registry well-formedness and resolution predicates -/

/-- Every registry tree is a well-formed translation tree (data-model shape). -/
def wfReg (c : List (String × JsFields)) : Bool :=
  c.all (fun q => wfVal (.vobj q.2))

/-- Whether a translate call's key resolves, per the pipeline's own steps: an
empty trimmed key resolves to the empty string immediately (spec section 4.5
step 2), and otherwise resolution is attempted against the current locale and
then the configured fallback locale. -/
def resolvesB (sel : String → Int → String) (st : I18nState) (key : String)
    (params : Params) : Bool :=
  (jsTrim key == "") || (resolveIn sel st st.f (jsTrim key) params).isSome ||
    (match fbOpt st with
     | some fb => (resolveIn sel st fb (jsTrim key) params).isSome
     | none => false)

/-! ### Concrete scenario fixtures (used by witnesses and counterexamples) -/

/-- A host categorizer that always answers `"other"`. -/
def selOther : String → Int → String := fun _ _ => "other"

/-- An inert host regex engine for scenarios whose parameter names all lie in
the modelled literal fragment (it is never consulted there). -/
def rxUnused : RegexHost := fun t _ _ => .ok t

/-- Scenario state of claim C1: current locale `de` bound to an empty tree,
fallback `en` with `{hello: "Hello"}`, one registered missing listener. -/
def stC1 : I18nState :=
  { c := [("de", .fnil), ("en", fieldsOf [("hello", .vstr "Hello")])]
    f := "de", p := some "en", j := .key, missN := 1, changeN := 0
    m := [], b := [], hasLoader := false, loaderCalls := 0, nextH := 0 }

/-- The scenario Plural Node `{one: "{{count}} item", other: "{{count}} items"}`
(no `zero` slot). -/
def itemsNode : JsFields :=
  fieldsOf
    [("one", .vstr "\x7b\x7bcount\x7d\x7d item"),
     ("other", .vstr "\x7b\x7bcount\x7d\x7d items")]

/-- Scenario state of claim C2: locale `en` with `{items: itemsNode}`, no
fallback. -/
def stC2 : I18nState :=
  { c := [("en", .fcons "items" (.vobj itemsNode) .fnil)]
    f := "en", p := none, j := .key, missN := 0, changeN := 1
    m := [], b := [], hasLoader := false, loaderCalls := 0, nextH := 0 }

/-- A one-key state whose `hello` resolves in the current locale, for the
interpolation-error counterexample. -/
def stR : I18nState :=
  { c := [("en", fieldsOf [("hello", .vstr "Hello")])]
    f := "en", p := none, j := .key, missN := 0, changeN := 0
    m := [], b := [], hasLoader := false, loaderCalls := 0, nextH := 0 }

/-- An empty-registry state with a configured loader, for the load
coordinator claims. -/
def stL : I18nState :=
  { c := [], f := "en", p := none, j := .key, missN := 0, changeN := 0
    m := [], b := [], hasLoader := true, loaderCalls := 0, nextH := 0 }

/-- A well-formed tree containing forbidden keys at the top level and nested
one level down, for the clone/merge witness. -/
def treeT : JsFields :=
  fieldsOf
    [("greeting", .vstr "Hi"),
     ("constructor", .vobj (fieldsOf [("polluted", .vstr "yes")])),
     ("nested", .vobj (fieldsOf
       [("__proto__", .vobj (fieldsOf [("polluted", .vstr "yes")])),
        ("ok", .vstr "v")]))]

/-- A clean merge target for the merge witness. -/
def treeE : JsFields :=
  fieldsOf [("a", .vobj (fieldsOf [("x", .vstr "1")]))]

/-- A merge source carrying a nested forbidden key and a Plural Node, for the
merge witness. -/
def treeN : JsFields :=
  fieldsOf
    [("a", .vobj (fieldsOf
       [("__proto__", .vobj (fieldsOf [("polluted", .vstr "yes")])),
        ("y", .vstr "2")])),
     ("items", .vobj (fieldsOf [("one", .vstr "i"), ("other", .vstr "is")]))]

/-- Claim C1: when a key resolves only via the configured fallback locale,
the resolved template is still the one handed to interpolation — the call
returns exactly the interpolation outcome of that template (the host regex
engine and the parameters being arbitrary) — and every registered missing
listener is notified with the trimmed key and the current locale, never the
fallback locale. -/
theorem c1_fallback_hit_notifies_current (rx : RegexHost)
    (sel : String → Int → String)
    (st : I18nState) (key : String) (params : Params) (fb s : String)
    (ht : jsTrim key ≠ "")
    (hcur : resolveIn sel st st.f (jsTrim key) params = none)
    (hfb : fbOpt st = some fb)
    (hres : resolveIn sel st fb (jsTrim key) params = some (.vstr s)) :
    translateKey rx sel st key params
      = (interpolateE rx s params, List.replicate st.missN (jsTrim key, st.f)) := by
  simp [translateKey, ht, hcur, hfb, hres, missEvents]

/-- Witness for C1: the spec scenario — current locale `de` with `{}`,
fallback `en` with `{hello: "Hello"}` — returns `"Hello"` and the registered
missing listener fires with `("hello", "de")`. -/
theorem c1_witness :
    translateKey rxUnused selOther stC1 "hello" none = (.ok "Hello", [("hello", "de")]) :=
  c1_fallback_hit_notifies_current rxUnused selOther stC1 "hello" none "en" "Hello"
    (by decide) rfl rfl rfl

/-- Helper: when plural resolution against the current locale yields a string
template, the pipeline returns that template's interpolation outcome and
fires no missing notification. -/
theorem translateKey_of_aResolve_vstr (rx : RegexHost) (sel : String → Int → String)
    (st : I18nState) (key : String) (params : Params) (s : String)
    (ht : jsTrim key ≠ "")
    (hc : (getCount params).isSome = true)
    (ha : aResolve sel st.c st.f (jsTrim key) params = some (.vstr s)) :
    translateKey rx sel st key params = (interpolateE rx s params, []) := by
  have hres : resolveIn sel st st.f (jsTrim key) params = some (.vstr s) := by
    simp [resolveIn, hc, ha]
  simp [translateKey, ht, hres]

/-- Claim C6: `setLocale` is a notification-free no-op on the current locale;
with a non-empty registry, an unknown locale and no fallback it rejects with
an error naming the locale, leaving the state unchanged (and, being the
synchronous guard, without any load attempt — the model performs none); in
every other case it commits the new locale and notifies change listeners
with `(new, previous)` in registration order. -/
theorem c6_setLocale_guard_and_commit (st : I18nState) (L : String)
    (hne : jsTrim L ≠ "") :
    (L = st.f → setLocale st L = (.ok st, []))
  ∧ (L ≠ st.f → getReg st.c L = none → st.c ≠ [] → fbOpt st = none →
      setLocale st L
        = (.error (.jsError ("No translations available for locale '" ++ L ++ "'")), []))
  ∧ (L ≠ st.f → ((getReg st.c L).isSome ∨ st.c = [] ∨ (fbOpt st).isSome) →
      setLocale st L = (.ok { st with f := L }, List.replicate st.changeN (L, st.f))) := by
  refine ⟨?_, ?_, ?_⟩
  · intro h
    subst h
    simp [setLocale, hne]
  · intro h1 h2 h3 h4
    simp [setLocale, hne, h1, h2, h3, h4]
  · intro h1 h2
    rcases h2 with h2 | h2 | h2
    · simp [setLocale, hne, h1, Option.isNone_iff_eq_none, h2]
      intro hc
      rw [hc] at h2
      simp [getReg] at h2
    · simp [setLocale, hne, h1, h2]
    · simp [setLocale, hne, h1, h2, Option.isSome_iff_ne_none.mp h2]

/-- Witness for C6, at the unknown-locale/no-fallback state of the items
scenario: switching to "fr" rejects with the error naming the locale. -/
theorem c6_witness :
    ("fr" = stC2.f → setLocale stC2 "fr" = (.ok stC2, []))
  ∧ ("fr" ≠ stC2.f → getReg stC2.c "fr" = none → stC2.c ≠ [] → fbOpt stC2 = none →
      setLocale stC2 "fr"
        = (.error (.jsError ("No translations available for locale '" ++ "fr" ++ "'")), []))
  ∧ ("fr" ≠ stC2.f → ((getReg stC2.c "fr").isSome ∨ stC2.c = [] ∨ (fbOpt stC2).isSome) →
      setLocale stC2 "fr"
        = (.ok { stC2 with f := "fr" }, List.replicate stC2.changeN ("fr", stC2.f))) :=
  c6_setLocale_guard_and_commit stC2 "fr" (by decide)

/-- Registry read-after-write at the written key. -/
theorem getReg_setReg_self (c : List (String × JsFields)) (k : String) (v : JsFields) :
    getReg (setReg c k v) k = some v := by
  induction c with
  | nil => simp [setReg, getReg]
  | cons p r ih =>
    by_cases h : p.1 = k
    · simp [setReg, getReg, h]
    · simp [setReg, getReg, h, ih]

/-- Registry read-after-write at a different key. -/
theorem getReg_setReg_ne (c : List (String × JsFields)) (k' k : String) (v : JsFields)
    (h : k' ≠ k) : getReg (setReg c k' v) k = getReg c k := by
  induction c with
  | nil => simp [setReg, getReg, h]
  | cons p r ih =>
    by_cases h2 : p.1 = k'
    · simp [setReg, getReg, h2, h, Ne.symm h]
    · by_cases h3 : p.1 = k <;> simp [setReg, getReg, h2, h3, Ne.symm h, ih]

/-- A construction fold populates the registry at every supplied locale. -/
theorem getReg_construction_mem (ts : List (String × JsFields)) (L : String) :
    ∀ acc, (L ∈ ts.map Prod.fst ∨ (getReg acc L).isSome = true) →
      (getReg (ts.foldl (fun a q => setReg a q.1 (wFields q.2)) acc) L).isSome = true := by
  induction ts with
  | nil =>
    intro acc h
    rcases h with h | h
    · simp at h
    · simpa using h
  | cons q r ih =>
    intro acc h
    simp only [List.foldl_cons]
    apply ih
    by_cases hk : q.1 = L
    · right
      subst hk
      simp [getReg_setReg_self]
    · rcases h with h | h
      · rw [List.map_cons, List.mem_cons] at h
        rcases h with h | h
        · exact absurd h.symm hk
        · exact Or.inl h
      · right
        rw [getReg_setReg_ne acc q.1 L _ hk]
        exact h

/-- The registry of `addTranslationsStep` is always a write at the given
locale (merge or clone-insert). -/
theorem addTranslationsStep_c (st : I18nState) (e : String) (n : JsFields) :
    ∃ v, (addTranslationsStep st e n).c = setReg st.c e v := by
  cases h : getReg st.c e with
  | none => exact ⟨wFields n, by simp [addTranslationsStep, h]⟩
  | some t => exact ⟨OFields t n, by simp [addTranslationsStep, h]⟩

/-- Counterexample to claim C7 as stated: a locale supplied only via the
`translations` option at construction is indeed absent from the
Loaded-Locale Marker Set, yet `isLocaleLoaded` returns `true` for it, not
`false` — `isLocaleLoaded` consults the Locale Registry (`c.has`), not the
marker set. -/
theorem c7_counterexample :
    (createI18nState "en" none [("en", fieldsOf [("hello", .vstr "Hello")])] false).m = []
  ∧ isLocaleLoaded
      (createI18nState "en" none [("en", fieldsOf [("hello", .vstr "Hello")])] false) "en"
      = true :=
  ⟨rfl, rfl⟩

/-- Amended claim C7: a construction-supplied locale is not in the
Loaded-Locale Marker Set (the set is empty at construction), but
`isLocaleLoaded` reports Locale Registry membership rather than that
marking — it returns `true` for every construction-supplied locale, exactly
as for a locale populated via the async load path. -/
theorem c7_amended_isLocaleLoaded_is_registry_membership
    (d : String) (fb : Option String) (ts : List (String × JsFields)) (ld : Bool)
    (L : String) (st : I18nState) (data : JsFields)
    (hmem : L ∈ ts.map Prod.fst) :
    (createI18nState d fb ts ld).m = []
  ∧ isLocaleLoaded (createI18nState d fb ts ld) L = true
  ∧ isLocaleLoaded (settleLoad st L (.success data)) L = true := by
  refine ⟨rfl, ?_, ?_⟩
  · exact getReg_construction_mem ts L [] (Or.inl hmem)
  · obtain ⟨v, hv⟩ := addTranslationsStep_c st L data
    simp [isLocaleLoaded, settleLoad, hv, getReg_setReg_self]

/-- Witness for the amended C7. -/
theorem c7_witness :
    (createI18nState "en" none [("en", fieldsOf [("hello", .vstr "Hello")])] true).m = []
  ∧ isLocaleLoaded
      (createI18nState "en" none [("en", fieldsOf [("hello", .vstr "Hello")])] true) "en" = true
  ∧ isLocaleLoaded (settleLoad stL "fr" (.success (fieldsOf [("hello", .vstr "Salut")]))) "fr"
      = true :=
  c7_amended_isLocaleLoaded_is_registry_membership "en" none
    [("en", fieldsOf [("hello", .vstr "Hello")])] true "en" stL
    (fieldsOf [("hello", .vstr "Salut")]) (by decide)

/-- In-flight read-after-write at the written locale. -/
theorem getInflight_setInflight_self (b : List (String × Nat)) (e : String) (h : Nat) :
    getInflight (setInflight b e h) e = some h := by
  induction b with
  | nil => simp [setInflight, getInflight]
  | cons p r ih =>
    by_cases h2 : p.1 = e
    · simp [setInflight, getInflight, h2]
    · simp [setInflight, getInflight, h2, ih]

/-- In-flight read after deletion at the deleted locale. -/
theorem getInflight_removeInflight_self (b : List (String × Nat)) (e : String) :
    getInflight (removeInflight b e) e = none := by
  induction b with
  | nil => simp [removeInflight, getInflight]
  | cons p r ih =>
    by_cases h2 : p.1 = e
    · simpa [removeInflight, h2] using ih
    · simpa [removeInflight, getInflight, h2] using ih

/-- Marker membership after marking. -/
theorem mem_addMark_self (m : List String) (e : String) : e ∈ addMark m e := by
  by_cases h : e ∈ m <;> simp [addMark, h]

/-- `addTranslations` touches only the registry and the marker set. -/
theorem addTranslationsStep_frame (st : I18nState) (e : String) (n : JsFields) :
    (addTranslationsStep st e n).loaderCalls = st.loaderCalls
  ∧ (addTranslationsStep st e n).b = st.b
  ∧ (addTranslationsStep st e n).hasLoader = st.hasLoader
  ∧ (addTranslationsStep st e n).nextH = st.nextH
  ∧ (addTranslationsStep st e n).f = st.f := by
  cases h : getReg st.c e <;> simp [addTranslationsStep, h]

/-- Claim C8: a fresh successful `loadLocale(x)` invokes the loader once; a
second `loadLocale(x)` without forcing resolves immediately with no work and
no further invocation; a subsequent `loadLocale(x, {forceReload: true})`
invokes the loader again. -/
theorem c8_loadLocale_idempotent_until_forced (st : I18nState) (x : String)
    (data : JsFields)
    (hL : st.hasLoader = true)
    (hb : getInflight st.b x = none)
    (hm : x ∉ st.m) :
    (loadLocaleStep st x false).1 = .started st.nextH
  ∧ (loadLocaleStep st x false).2.loaderCalls = st.loaderCalls + 1
  ∧ (loadLocaleStep (settleLoad (loadLocaleStep st x false).2 x (.success data)) x false).1
      = .immediate
  ∧ (loadLocaleStep (settleLoad (loadLocaleStep st x false).2 x (.success data)) x false).2
      = settleLoad (loadLocaleStep st x false).2 x (.success data)
  ∧ (settleLoad (loadLocaleStep st x false).2 x (.success data)).loaderCalls
      = st.loaderCalls + 1
  ∧ (loadLocaleStep (settleLoad (loadLocaleStep st x false).2 x (.success data)) x true).2.loaderCalls
      = st.loaderCalls + 2 := by
  have hstep : loadLocaleStep st x false
      = (.started st.nextH,
         { st with b := setInflight st.b x st.nextH,
                   loaderCalls := st.loaderCalls + 1,
                   nextH := st.nextH + 1 }) := by
    simp [loadLocaleStep, hL, hb, hm]
  rw [hstep]
  rcases hreg : getReg st.c x with _ | t <;>
    simp [settleLoad, addTranslationsStep, hreg, loadLocaleStep, hL,
      getInflight_removeInflight_self, mem_addMark_self]

/-- Witness for C8, loading `fr` from the empty loader-configured state. -/
theorem c8_witness :
    (loadLocaleStep stL "fr" false).1 = .started stL.nextH
  ∧ (loadLocaleStep stL "fr" false).2.loaderCalls = stL.loaderCalls + 1
  ∧ (loadLocaleStep (settleLoad (loadLocaleStep stL "fr" false).2 "fr"
      (.success (fieldsOf [("hello", .vstr "Salut")]))) "fr" false).1 = .immediate
  ∧ (loadLocaleStep (settleLoad (loadLocaleStep stL "fr" false).2 "fr"
      (.success (fieldsOf [("hello", .vstr "Salut")]))) "fr" false).2
      = settleLoad (loadLocaleStep stL "fr" false).2 "fr"
          (.success (fieldsOf [("hello", .vstr "Salut")]))
  ∧ (settleLoad (loadLocaleStep stL "fr" false).2 "fr"
      (.success (fieldsOf [("hello", .vstr "Salut")]))).loaderCalls = stL.loaderCalls + 1
  ∧ (loadLocaleStep (settleLoad (loadLocaleStep stL "fr" false).2 "fr"
      (.success (fieldsOf [("hello", .vstr "Salut")]))) "fr" true).2.loaderCalls
      = stL.loaderCalls + 2 :=
  c8_loadLocale_idempotent_until_forced stL "fr" (fieldsOf [("hello", .vstr "Salut")])
    rfl rfl (by decide)

/-- Claim C9: overlapping `loadLocale` calls for the same locale before the
first settles (none forcing) observe exactly one loader invocation and all
receive the same pending handle (hence the identical outcome, which is a
property of the handle); the in-flight entry is removed unconditionally when
the load settles, whatever the outcome. -/
theorem c9_concurrent_load_deduplication (st : I18nState) (x : String)
    (hL : st.hasLoader = true)
    (hb : getInflight st.b x = none)
    (hm : x ∉ st.m) :
    (loadLocaleStep st x false).1 = .started st.nextH
  ∧ (loadLocaleStep (loadLocaleStep st x false).2 x false).1 = .inflight st.nextH
  ∧ (loadLocaleStep (loadLocaleStep st x false).2 x false).2 = (loadLocaleStep st x false).2
  ∧ (loadLocaleStep (loadLocaleStep (loadLocaleStep st x false).2 x false).2 x false).1
      = .inflight st.nextH
  ∧ (loadLocaleStep st x false).2.loaderCalls = st.loaderCalls + 1
  ∧ (∀ out : LoadOutcome,
      getInflight (settleLoad (loadLocaleStep st x false).2 x out).b x = none) := by
  have hstep : loadLocaleStep st x false
      = (.started st.nextH,
         { st with b := setInflight st.b x st.nextH,
                   loaderCalls := st.loaderCalls + 1,
                   nextH := st.nextH + 1 }) := by
    simp [loadLocaleStep, hL, hb, hm]
  rw [hstep]
  refine ⟨rfl, ?_, ?_, ?_, rfl, ?_⟩
  · simp [loadLocaleStep, hL, getInflight_setInflight_self]
  · simp [loadLocaleStep, hL, getInflight_setInflight_self]
  · simp [loadLocaleStep, hL, getInflight_setInflight_self]
  · intro out
    cases out with
    | success data =>
      rcases hreg : getReg st.c x with _ | t <;>
        simp [settleLoad, addTranslationsStep, hreg, getInflight_removeInflight_self]
    | invalidData => simp [settleLoad, getInflight_removeInflight_self]
    | failure => simp [settleLoad, getInflight_removeInflight_self]

/-- Witness for C9: three overlapping loads of `fr`. -/
theorem c9_witness :
    (loadLocaleStep stL "fr" false).1 = .started stL.nextH
  ∧ (loadLocaleStep (loadLocaleStep stL "fr" false).2 "fr" false).1 = .inflight stL.nextH
  ∧ (loadLocaleStep (loadLocaleStep stL "fr" false).2 "fr" false).2
      = (loadLocaleStep stL "fr" false).2
  ∧ (loadLocaleStep (loadLocaleStep (loadLocaleStep stL "fr" false).2 "fr" false).2 "fr" false).1
      = .inflight stL.nextH
  ∧ (loadLocaleStep stL "fr" false).2.loaderCalls = stL.loaderCalls + 1
  ∧ (∀ out : LoadOutcome,
      getInflight (settleLoad (loadLocaleStep stL "fr" false).2 "fr" out).b "fr" = none) :=
  c9_concurrent_load_deduplication stL "fr" rfl rfl (by decide)

/-- Claim C10: `addTranslations` for a locale with no registry entry adds the
locale to the Loaded-Locale Marker Set, so an unforced `loadLocale` resolves
immediately without invoking the loader and `setLocaleAsync` skips
auto-loading; for a locale that already has an entry, the tree is merged and
the marker set is left unchanged. -/
theorem c10_addTranslations_marks_only_fresh_locales
    (st st2 : I18nState) (L L2 : String) (tree tree2 : JsFields)
    (h1 : getReg st.c L = none)
    (hL : st.hasLoader = true)
    (hb : getInflight st.b L = none)
    (h2 : (getReg st2.c L2).isSome = true) :
    L ∈ (addTranslationsStep st L tree).m
  ∧ loadLocaleStep (addTranslationsStep st L tree) L false
      = (.immediate, addTranslationsStep st L tree)
  ∧ autoLoadAttempted (addTranslationsStep st L tree) L = false
  ∧ (addTranslationsStep st2 L2 tree2).m = st2.m
  ∧ (∃ t, getReg st2.c L2 = some t
        ∧ (addTranslationsStep st2 L2 tree2).c = setReg st2.c L2 (OFields t tree2)) := by
  obtain ⟨t2, ht2⟩ := Option.isSome_iff_exists.mp h2
  refine ⟨?_, ?_, ?_, ?_, t2, ht2, ?_⟩
  · simp [addTranslationsStep, h1, mem_addMark_self]
  · simp [addTranslationsStep, h1, loadLocaleStep, hL, hb, mem_addMark_self]
  · simp [addTranslationsStep, h1, autoLoadAttempted, mem_addMark_self]
  · simp [addTranslationsStep, ht2]
  · simp [addTranslationsStep, ht2]

/-- Witness for C10: adding `fr` to the empty loader-configured state, and
merging into the existing `en` of the items scenario. -/
theorem c10_witness :
    "fr" ∈ (addTranslationsStep stL "fr" (fieldsOf [("hello", .vstr "Salut")])).m
  ∧ loadLocaleStep (addTranslationsStep stL "fr" (fieldsOf [("hello", .vstr "Salut")])) "fr" false
      = (.immediate, addTranslationsStep stL "fr" (fieldsOf [("hello", .vstr "Salut")]))
  ∧ autoLoadAttempted (addTranslationsStep stL "fr" (fieldsOf [("hello", .vstr "Salut")])) "fr"
      = false
  ∧ (addTranslationsStep stC2 "en" (fieldsOf [("bye", .vstr "Bye")])).m = stC2.m
  ∧ (∃ t, getReg stC2.c "en" = some t
        ∧ (addTranslationsStep stC2 "en" (fieldsOf [("bye", .vstr "Bye")])).c
            = setReg stC2.c "en" (OFields t (fieldsOf [("bye", .vstr "Bye")]))) :=
  c10_addTranslations_marks_only_fresh_locales stL stC2 "fr" "en"
    (fieldsOf [("hello", .vstr "Salut")]) (fieldsOf [("bye", .vstr "Bye")])
    rfl rfl rfl rfl

/-- The clone `w` computes exactly the spec's forbidden-key erasure on
well-formed translation trees. -/
theorem wFields_eq_eraseFields : ∀ l, wfFields l = true → wFields l = eraseFields l := by
  intro l
  induction l using wFields.induct with
  | case1 => intro _; rfl
  | case2 k a r hforb ih =>
    intro h
    simp only [wfFields, Bool.and_eq_true] at h
    have hm : k ∈ forbiddenKeys := by simpa using hforb
    rw [wFields.eq_def]
    simp [eraseFields, hforb, hm, ih h.2]
  | case3 k r hforb ih =>
    intro h
    simp [wfFields, wfVal] at h
  | case4 k r hforb l ihl ihr =>
    intro h
    simp only [wfFields, wfVal, Bool.and_eq_true] at h
    have hm : k ∉ forbiddenKeys := by simpa using hforb
    simp [wFields, eraseFields, eraseVal, hforb, hm, ihl h.1.2, ihr h.2]
  | case5 k r hforb v hnu hno ih =>
    intro h
    simp only [wfFields, Bool.and_eq_true] at h
    have hm : k ∉ forbiddenKeys := by simpa using hforb
    rcases v with s | i | bl | _ | _ | xs | l
    · simp [wFields, eraseFields, eraseVal, hforb, hm, ih h.2]
    · exfalso; simpa [wfVal] using h.1
    · exfalso; simpa [wfVal] using h.1
    · exfalso; simpa [wfVal] using h.1
    · exact absurd rfl hnu
    · exfalso; simpa [wfVal] using h.1
    · exact absurd rfl (hno l)

/-- Plain structural induction on field lists. -/
theorem JsFields.ind (motive : JsFields → Prop) (h0 : motive .fnil)
    (h1 : ∀ k v r, motive r → motive (.fcons k v r)) : ∀ l, motive l := by
  intro l
  induction l using strVals.induct with
  | case1 => exact h0
  | case2 k v r ih => exact h1 k v r ih

/-- Cloning a well-formed tree leaves no forbidden key at any depth. -/
theorem cleanFields_wFields : ∀ l, wfFields l = true → cleanFields (wFields l) = true := by
  intro l
  induction l using wFields.induct with
  | case1 => intro _; rfl
  | case2 k a r hforb ih =>
    intro h
    simp only [wfFields, Bool.and_eq_true] at h
    have hm : k ∈ forbiddenKeys := by simpa using hforb
    rw [wFields.eq_def]
    simp [hforb, hm, ih h.2]
  | case3 k r hforb ih =>
    intro h
    simp [wfFields, wfVal] at h
  | case4 k r hforb l ihl ihr =>
    intro h
    simp only [wfFields, wfVal, Bool.and_eq_true] at h
    have hm : k ∉ forbiddenKeys := by simpa using hforb
    simp [wFields, cleanFields, cleanVal, hm, ihl h.1.2, ihr h.2]
  | case5 k r hforb v hnu hno ih =>
    intro h
    simp only [wfFields, Bool.and_eq_true] at h
    have hm : k ∉ forbiddenKeys := by simpa using hforb
    rcases v with s | i | bl | _ | _ | xs | l
    · simp [wFields, cleanFields, cleanVal, hm, ih h.2]
    · exfalso; simpa [wfVal] using h.1
    · exfalso; simpa [wfVal] using h.1
    · exfalso; simpa [wfVal] using h.1
    · exact absurd rfl hnu
    · exfalso; simpa [wfVal] using h.1
    · exact absurd rfl (hno l)

/-- Plural-category labels are never forbidden keys. -/
theorem mem_cats_not_forbidden {k : String} (h : k ∈ pluralCats) :
    k ∉ forbiddenKeys := by
  simp [pluralCats] at h
  rcases h with h | h | h | h | h | h <;> subst h <;> decide

/-- A field list with category-label keys and string values is clean. -/
theorem clean_of_catKeys : ∀ l, (fKeys l).all (fun k => pluralCats.contains k) = true →
    strVals l = true → cleanFields l = true := by
  intro l
  induction l using strVals.induct with
  | case1 => intro _ _; rfl
  | case2 k v r ih =>
    intro hall hs
    simp only [fKeys, List.all_cons, Bool.and_eq_true] at hall
    simp only [strVals, Bool.and_eq_true] at hs
    have hk : k ∉ forbiddenKeys := mem_cats_not_forbidden (by simpa using hall.1)
    rcases v with s | _ | _ | _ | _ | _ | _ <;> simp_all [cleanFields, cleanVal, ih]

/-- Assignment preserves cleanliness. -/
theorem setField_clean (k : String) (v : JsVal) (hv : cleanVal v = true)
    (hk : forbiddenKeys.contains k = false) :
    ∀ t, cleanFields t = true → cleanFields (setField t k v) = true := by
  have hk' : k ∉ forbiddenKeys := by simpa using hk
  intro t
  induction t using JsFields.ind with
  | h0 => intro _; simp [setField, cleanFields, hv, hk, hk']
  | h1 k' v' r ih =>
    intro h
    simp only [cleanFields, Bool.and_eq_true] at h
    by_cases he : k' = k
    · subst he
      simp [setField, cleanFields, hv, hk, hk', h.1.1, h.2]
    · have hk2 : k' ∉ forbiddenKeys := by simpa using h.1.1
      simp [setField, he, cleanFields, hk2, h.1.2, h.2, ih h.2]

/-- Reading a clean object yields a clean value. -/
theorem getOwn_clean (a : String) :
    ∀ t v, cleanFields t = true → getOwn t a = some v → cleanVal v = true := by
  intro t
  induction t using JsFields.ind with
  | h0 => intro v _ hg; simp [getOwn] at hg
  | h1 k v' r ih =>
    intro v h hg
    simp only [cleanFields, Bool.and_eq_true] at h
    by_cases he : k = a
    · simp only [getOwn, he, if_pos] at hg
      cases hg
      exact h.1.2
    · simp only [getOwn, he, if_neg, ite_false] at hg
      exact ih v h.2 hg

/-- The merge's first loop preserves cleanliness. -/
theorem filterTgt_clean : ∀ e, cleanFields e = true → cleanFields (filterTgt e) = true := by
  intro e
  induction e using filterTgt.induct with
  | case1 => intro _; rfl
  | case2 r a rest hforb ih =>
    intro h
    simp only [cleanFields, Bool.and_eq_true] at h
    rw [hforb] at h
    simp at h
  | case3 r rest hforb ih =>
    intro h
    simp only [cleanFields, Bool.and_eq_true] at h
    rw [filterTgt.eq_def]
    simp [hforb, ih h.2, (by simpa using hforb : r ∉ forbiddenKeys)]
  | case4 r rest hforb a hnu ih =>
    intro h
    simp only [cleanFields, Bool.and_eq_true] at h
    rw [filterTgt.eq_def]
    rcases a with s | i | bl | _ | _ | xs | l <;>
      simp_all [cleanFields, (by simpa using hforb : r ∉ forbiddenKeys)]

/-- The merge's second loop of a well-formed source into a clean accumulated
target yields a clean result: the forbidden-key filter acts at every level it
recurses into, and cloned/copied source material is itself clean. -/
theorem mergeInto_clean : ∀ t n, cleanFields t = true → wfFields n = true →
    cleanFields (mergeInto t n) = true := by
  intro t n
  induction t, n using mergeInto.induct with
  | case1 t => intro ht _; simpa [mergeInto] using ht
  | case2 t r a rest hforb ih =>
    intro ht hn
    simp only [wfFields, Bool.and_eq_true] at hn
    rw [mergeInto.eq_def]
    simp [hforb, ih ht hn.2, (by simpa using hforb : r ∈ forbiddenKeys)]
  | case3 t r rest hforb ih =>
    intro ht hn
    simp [wfFields, wfVal] at hn
  | case4 t r rest hforb l hpl ih =>
    intro ht hn
    simp only [wfFields, wfVal, Bool.and_eq_true] at hn
    have hstr : strVals l = true := by
      rcases Bool.or_eq_true_iff.mp hn.1.1 with h | h
      · rw [hpl] at h; simp at h
      · exact h
    have hcl : cleanVal (.vobj l) = true := by
      have : (fKeys l).all (fun k => pluralCats.contains k) = true := by
        have := hpl
        simp only [isPluralFields, Bool.and_eq_true] at this
        exact this.2
      simpa [cleanVal] using clean_of_catKeys l this hstr
    rw [mergeInto.eq_def]
    simp only [hpl, if_true]
    have hk : forbiddenKeys.contains r = false := by
      simpa using hforb
    simp [hforb, (by simpa using hforb : r ∉ forbiddenKeys), hpl,
      ih (setField_clean r (.vobj l) hcl hk t ht) hn.2]
  | case5 t r rest hforb l hpl s hget ihs ih =>
    intro ht hn
    simp only [wfFields, wfVal, Bool.and_eq_true] at hn
    have hk : forbiddenKeys.contains r = false := by simpa using hforb
    have hs : cleanFields s = true := by
      have := getOwn_clean r t (.vobj s) ht hget
      simpa [cleanVal] using this
    have hnested : cleanFields (mergeInto (filterTgt s) l) = true :=
      ihs (filterTgt_clean s hs) hn.1.2
    rw [mergeInto.eq_def]
    simp only [(by simpa using hforb : r ∉ forbiddenKeys), if_false, hpl, hget]
    simp [hpl, hget, (by simpa using hforb : r ∉ forbiddenKeys),
      ih (setField_clean r (.vobj (mergeInto (filterTgt s) l)) (by simpa [cleanVal] using hnested) hk t ht) hn.2]
  | case6 t r rest hforb l hpl hget ih =>
    intro ht hn
    simp only [wfFields, wfVal, Bool.and_eq_true] at hn
    have hk : forbiddenKeys.contains r = false := by simpa using hforb
    have hclone : cleanFields (wFields l) = true := cleanFields_wFields l hn.1.2
    rw [mergeInto.eq_def]
    rcases hg : getOwn t r with _ | v
    · simp [hpl, hg, (by simpa using hforb : r ∉ forbiddenKeys),
        ih (setField_clean r (.vobj (wFields l)) (by simpa [cleanVal] using hclone) hk t ht) hn.2]
    · rcases v with s | i | bl | _ | _ | xs | l2
      case vobj => exact (hget l2 hg).elim
      all_goals
        simp [hpl, hg, (by simpa using hforb : r ∉ forbiddenKeys),
          ih (setField_clean r (.vobj (wFields l)) (by simpa [cleanVal] using hclone) hk t ht) hn.2]
  | case7 t r rest hforb v hnu hno ih =>
    intro ht hn
    simp only [wfFields, Bool.and_eq_true] at hn
    have hk : forbiddenKeys.contains r = false := by simpa using hforb
    rcases v with s | i | bl | _ | _ | xs | l
    · rw [mergeInto.eq_def]
      simp [(by simpa using hforb : r ∉ forbiddenKeys),
        ih (setField_clean r (.vstr s) rfl hk t ht) hn.2]
    · exfalso; simpa [wfVal] using hn.1
    · exfalso; simpa [wfVal] using hn.1
    · exfalso; simpa [wfVal] using hn.1
    · exact absurd rfl hnu
    · exfalso; simpa [wfVal] using hn.1
    · exact absurd rfl (hno l)

/-- Claim C5: on well-formed translation trees, `clone` produces exactly the
input with the forbidden structural-identity keys dropped at every depth
(hence deep-equal up to those keys), the clone carries no forbidden key at
any depth, and merging a well-formed source into a clean target (the Locale
Registry invariant — registry trees are produced by clone/merge) yields a
tree with no forbidden key at any depth: the filter applies at every
recursion level of both operations, not only at the top.  (The freedom from
input mutation and from sharing with the clone is inherent to this pure
value model: both operations construct their results.) -/
theorem c5_clone_merge_forbidden_key_filter (T e n : JsFields)
    (hT : wfFields T = true) (he : cleanFields e = true) (hn : wfFields n = true) :
    wFields T = eraseFields T
  ∧ cleanFields (wFields T) = true
  ∧ cleanFields (OFields e n) = true :=
  ⟨wFields_eq_eraseFields T hT, cleanFields_wFields T hT,
   mergeInto_clean (filterTgt e) n (filterTgt_clean e he) hn⟩

/-- Witness for C5: a tree with a top-level `constructor` key and a nested
`__proto__` key, merged material with a nested `__proto__` and a Plural
Node. -/
theorem c5_witness :
    wFields treeT = eraseFields treeT
  ∧ cleanFields (wFields treeT) = true
  ∧ cleanFields (OFields treeE treeN) = true :=
  c5_clone_merge_forbidden_key_filter treeT treeE treeN (by decide) (by decide) (by decide)

/-- A well-formed registry yields well-formed trees. -/
theorem wfReg_getReg : ∀ c : List (String × JsFields), wfReg c = true →
    ∀ loc t, getReg c loc = some t → wfVal (.vobj t) = true := by
  intro c
  induction c with
  | nil => intro _ loc t hg; simp [getReg] at hg
  | cons p r ih =>
    intro h loc t hg
    simp only [wfReg, List.all_cons, Bool.and_eq_true] at h
    by_cases he : p.1 = loc
    · simp only [getReg, he, if_pos] at hg
      cases hg
      exact h.1
    · simp only [getReg, he, ite_false] at hg
      exact ih (by simpa [wfReg] using h.2) loc t hg

/-- Reading a well-formed tree yields a well-formed value. -/
theorem wf_getOwn (a : String) : ∀ l v, wfFields l = true → getOwn l a = some v →
    wfVal v = true := by
  intro l
  induction l using JsFields.ind with
  | h0 => intro v _ hg; simp [getOwn] at hg
  | h1 k v' r ih =>
    intro v h hg
    simp only [wfFields, Bool.and_eq_true] at h
    by_cases he : k = a
    · simp only [getOwn, he, if_pos] at hg
      cases hg
      exact h.1
    · simp only [getOwn, he, ite_false] at hg
      exact ih v h.2 hg

/-- The plural walk preserves well-formedness. -/
theorem wf_aWalk : ∀ (segs : List String) (r x : JsVal), wfVal r = true →
    aWalk r segs = some x → wfVal x = true := by
  intro segs
  induction segs with
  | nil =>
    intro r x h hw
    simp only [aWalk] at hw
    cases hw
    exact h
  | cons a rest ih =>
    intro r x h hw
    rcases r with s | i | bl | _ | _ | xs | l
    all_goals simp only [aWalk] at hw <;> try exact absurd hw (by simp)
    rcases hg : getOwn l a with _ | v
    · rw [hg] at hw; simp at hw
    · rw [hg] at hw
      have hv : wfVal v = true := by
        have hf : wfFields l = true := by
          simp only [wfVal, Bool.and_eq_true] at h
          exact h.2
        exact wf_getOwn a l v hf hg
      rcases v with s | i | bl | _ | _ | xs | l2
      · exact ih _ _ hv (by simpa using hw)
      · exact ih _ _ hv (by simpa using hw)
      · exact ih _ _ hv (by simpa using hw)
      · exact ih _ _ hv (by simpa using hw)
      · simp at hw
      · exact ih _ _ hv (by simpa using hw)
      · exact ih _ _ hv (by simpa using hw)

/-- Reading a string-valued field list yields a string. -/
theorem strVals_getOwn (k : String) : ∀ l v, strVals l = true → getOwn l k = some v →
    ∃ s, v = .vstr s := by
  intro l
  induction l using JsFields.ind with
  | h0 => intro v _ hg; simp [getOwn] at hg
  | h1 k' v' r ih =>
    intro v h hg
    simp only [strVals, Bool.and_eq_true] at h
    by_cases he : k' = k
    · simp only [getOwn, he, if_pos] at hg
      cases hg
      rcases v' with s | _ | _ | _ | _ | _ | _ <;> simp_all
    · simp only [getOwn, he, ite_false] at hg
      exact ih v h.2 hg

/-- A defined read is an own-property read. -/
theorem definedGet_some (l : JsFields) (k : String) (v : JsVal)
    (h : definedGet l k = some v) : getOwn l k = some v := by
  unfold definedGet at h
  rcases hg : getOwn l k with _ | w <;> rw [hg] at h
  · simpa using h
  · rcases w with s | _ | _ | _ | _ | _ | _ <;> simp_all

/-- On a well-formed registry, the plural resolver only produces strings. -/
theorem wf_aResolve (sel : String → Int → String) (c : List (String × JsFields))
    (loc key : String) (params : Params) (v : JsVal)
    (hwf : wfReg c = true) (h : aResolve sel c loc key params = some v) :
    ∃ s, v = .vstr s := by
  rcases hg : getReg c loc with _ | t
  · simp [aResolve, hg] at h
  · simp only [aResolve, hg] at h
    rcases hw : aWalk (.vobj t) (splitDot key) with _ | a
    · simp [hw] at h
    · simp only [hw] at h
      have hwa : wfVal a = true :=
        wf_aWalk (splitDot key) (.vobj t) a (wfReg_getReg c hwf loc t hg) hw
      rcases a with s | i | bl | _ | _ | xs | l
      · simp at h
      · simp at h
      · simp at h
      · simp at h
      · simp at h
      · simp at h
      · simp only at h
        by_cases hpl : isPluralFields l = true
        · have hstr : strVals l = true := by
            simp only [wfVal, Bool.and_eq_true] at hwa
            rcases Bool.or_eq_true_iff.mp hwa.1 with hx | hx
            · rw [hpl] at hx; simp at hx
            · exact hx
          rw [if_pos hpl] at h
          rcases hc : getCount params with _ | cnum
          · simp [hc] at h
          · simp only [hc] at h
            rcases h1 : (if pluralCat sel loc cnum = "zero"
                then definedGet l "zero" else none) with _ | z
            all_goals simp only [h1] at h
            · rcases h2 : definedGet l (pluralCat sel loc cnum) with _ | d
              all_goals simp only [h2] at h
              · rcases strVals_getOwn "other" l v hstr
                  (definedGet_some l "other" v (by simpa using h)) with ⟨s, hs⟩
                exact ⟨s, hs⟩
              · rcases strVals_getOwn _ l d hstr (definedGet_some l _ d h2) with ⟨s, hs⟩
                exact ⟨s, by simpa [hs] using h.symm⟩
            · have hz : definedGet l "zero" = some z := by
                by_cases hzz : pluralCat sel loc cnum = "zero"
                · simpa [hzz] using h1
                · simp [hzz] at h1
              rcases strVals_getOwn "zero" l z hstr (definedGet_some l "zero" z hz)
                with ⟨s, hs⟩
              exact ⟨s, by simpa [hs] using h.symm⟩
        · rw [if_neg hpl] at h
          simp at h

/-- On a well-formed registry, a locale's resolution attempt only produces
strings. -/
theorem wf_resolveIn (sel : String → Int → String) (st : I18nState)
    (loc t : String) (params : Params) (v : JsVal)
    (hwf : wfReg st.c = true) (h : resolveIn sel st loc t params = some v) :
    ∃ s, v = .vstr s := by
  unfold resolveIn at h
  rcases ha : (if (getCount params).isSome then aResolve sel st.c loc t params
      else none) with _ | r <;> rw [ha] at h
  · rcases hv : vResolve st.c loc t with _ | s <;> rw [hv] at h
    · simp at h
    · exact ⟨s, by simpa using h.symm⟩
  · by_cases hc : (getCount params).isSome
    · rw [if_pos hc] at ha
      cases h
      exact wf_aResolve sel st.c loc t params v hwf ha
    · rw [if_neg hc] at ha
      simp at ha

/-- A loop of `k` over literal-fragment parameter names never throws. -/
theorem interpLoop_ok (rx : RegexHost) : ∀ (l : List (String × PVal)) (t : String),
    l.all (fun p => simpleName p.1) = true → ∃ out, interpLoop rx l t = .ok out := by
  intro l
  induction l with
  | nil => intro t _; exact ⟨t, rfl⟩
  | cons p rest ih =>
    intro t h
    simp only [List.all_cons, Bool.and_eq_true] at h
    simp only [interpLoop, replaceStep, h.1, if_true]
    exact ih _ h.2

/-- Interpolation with literal-fragment parameter names never throws. -/
theorem interpolateE_ok (rx : RegexHost) (e : String) (params : Params)
    (h : paramsNamesSimple params = true) :
    ∃ out, interpolateE rx e params = .ok out := by
  cases params with
  | none => exact ⟨e, rfl⟩
  | some l => exact interpLoop_ok rx l e (by simpa [paramsNamesSimple] using h)

/-- Counterexample to claim C4 as stated: with a resolved key and the
regex-invalid parameter name `(` — a valid non-array params object in the
claim's scope — the call raises the host's `SyntaxError` from `new RegExp`,
an error that is neither a return string nor a missing-translation
`I18nError`. -/
theorem c4_counterexample :
    translateKey rxUnused selOther stR "hello" (some [("(", .pstr "x")])
      = (.error (.hostSyntaxError "Invalid regular expression"), [])
  ∧ ∀ m, JsErr.hostSyntaxError "Invalid regular expression" ≠ .i18nError m :=
  ⟨rfl, fun _ h => JsErr.noConfusion h⟩

/-- Amended claim C4: a translate call with a string key and a valid params
shape whose parameter names lie in the literal regex fragment
(identifier-shaped names) either returns a string or raises the
missing-translation `I18nError`, and it raises exactly when the key resolves
in neither the current nor the fallback locale (an empty trimmed key counting
as resolved to the empty string, per the pipeline's step 2) and the missing
behavior is the raising mode; no other error kind escapes such a call on a
well-formed registry.  (Without the name restriction the interpolator's
`new RegExp` can throw, as the counterexample shows.) -/
theorem c4_error_iff_missing_and_throw (rx : RegexHost) (sel : String → Int → String)
    (st : I18nState) (key : String) (params : Params)
    (hwf : wfReg st.c = true)
    (hps : paramsNamesSimple params = true) :
    ((translateKey rx sel st key params).1
        = .error (.i18nError ("Missing translation: " ++ jsTrim key))
      ↔ (resolvesB sel st key params = false ∧ st.j = .throw))
  ∧ (∀ err, (translateKey rx sel st key params).1 = .error err →
      err = .i18nError ("Missing translation: " ++ jsTrim key)) := by
  by_cases ht : jsTrim key = ""
  · constructor
    · simp [translateKey, ht, resolvesB]
    · intro err herr
      simp [translateKey, ht] at herr
  · rcases hcur : resolveIn sel st st.f (jsTrim key) params with _ | v
    · rcases hfb : fbOpt st with _ | fb
      · cases hj : st.j <;>
          simp [translateKey, resolvesB, ht, hcur, hfb, hj]
      · rcases hfres : resolveIn sel st fb (jsTrim key) params with _ | v
        · cases hj : st.j <;>
            simp [translateKey, resolvesB, ht, hcur, hfb, hfres, hj]
        · obtain ⟨s, rfl⟩ := wf_resolveIn sel st fb (jsTrim key) params v hwf hfres
          obtain ⟨out, hout⟩ := interpolateE_ok rx s params hps
          simp [translateKey, resolvesB, ht, hcur, hfb, hfres, hout]
    · obtain ⟨s, rfl⟩ := wf_resolveIn sel st st.f (jsTrim key) params v hwf hcur
      obtain ⟨out, hout⟩ := interpolateE_ok rx s params hps
      simp [translateKey, resolvesB, ht, hcur, hout]

/-- Witness for the amended C4: the missing key `nope` under the raising
behavior. -/
theorem c4_witness :
    ((translateKey rxUnused selOther { stC2 with j := .throw } "nope" none).1
        = .error (.i18nError ("Missing translation: " ++ jsTrim "nope"))
      ↔ (resolvesB selOther { stC2 with j := .throw } "nope" none = false
          ∧ ({ stC2 with j := .throw } : I18nState).j = .throw))
  ∧ (∀ err, (translateKey rxUnused selOther { stC2 with j := .throw } "nope" none).1
        = .error err →
      err = .i18nError ("Missing translation: " ++ jsTrim "nope")) :=
  c4_error_iff_missing_and_throw rxUnused selOther { stC2 with j := .throw } "nope" none
    (by decide) (by decide)

/-- Dropping a prefix can only shorten a list. -/
theorem len_dropWhile_le (p : Char → Bool) : ∀ l : List Char,
    (l.dropWhile p).length ≤ l.length := by
  intro l
  induction l with
  | nil => simp
  | cons c cs ih =>
    by_cases h : p c <;> simp [List.dropWhile_cons, h] <;> omega

/-- Stripping a literal can only shorten the remainder. -/
theorem stripLit_length : ∀ p l r : List Char, stripLit p l = some r →
    r.length ≤ l.length := by
  intro p
  induction p with
  | nil =>
    intro l r h
    simp only [stripLit, Option.some_inj] at h
    subst h
    exact Nat.le_refl _
  | cons ch cs ih =>
    intro l r h
    cases l with
    | nil => simp [stripLit] at h
    | cons d ds =>
      simp only [stripLit] at h
      by_cases hcd : ch = d
      · rw [if_pos hcd] at h
        have := ih ds r h
        simp only [List.length_cons]
        omega
      · rw [if_neg hcd] at h
        simp at h

/-- A successful placeholder match consumes at least one character. -/
theorem phMatch_length : ∀ (name l : List Char) (mt : List Char × List Char),
    phMatch name l = some mt → mt.2.length < l.length := by
  intro name l mt h
  simp only [phMatch] at h
  split at h
  · rename_i r
    rcases hs : stripLit name (r.dropWhile isWsChar) with _ | r2
    · simp [hs] at h
    · simp only [hs] at h
      split at h
      · rename_i tl heq2
        cases h
        have l1 : r2.length ≤ (r.dropWhile isWsChar).length :=
          stripLit_length name _ r2 hs
        have l2 : (r.dropWhile isWsChar).length ≤ r.length := len_dropWhile_le _ r
        have l3 := congrArg List.length heq2
        have l4 : (r2.dropWhile isWsChar).length ≤ r2.length := len_dropWhile_le _ r2
        simp only [List.length_cons] at l3 ⊢
        omega
      · simp at h
  · simp at h

/-- The replacement pass is insensitive to the exact fuel, once sufficient. -/
theorem replaceGo_congr (name val : List Char) : ∀ f1 f2 (preRev l : List Char),
    l.length ≤ f1 → l.length ≤ f2 →
    replaceGo name val f1 preRev l = replaceGo name val f2 preRev l := by
  intro f1
  induction f1 with
  | zero =>
    intro f2 preRev l h1 _
    have : l = [] := List.length_eq_zero.mp (Nat.le_zero.mp h1)
    subst this
    cases f2 <;> rfl
  | succ a ih =>
    intro f2 preRev l h1 h2
    cases l with
    | nil => cases f2 <;> rfl
    | cons ch rest =>
      cases f2 with
      | zero => simp at h2
      | succ b =>
        rcases hm : phMatch name (ch :: rest) with _ | mt
        · simp only [replaceGo, hm]
          simp only [List.length_cons] at h1 h2
          rw [ih b (ch :: preRev) rest (by omega) (by omega)]
        · rcases mt with ⟨matched, tail⟩
          simp only [replaceGo, hm]
          have hlt := phMatch_length name (ch :: rest) (matched, tail) hm
          simp only [List.length_cons] at h1 h2 hlt
          rw [ih b (matched.reverse ++ preRev) tail (by omega) (by omega)]

/-- Stepping rule at a non-matching head. -/
theorem replaceGo_nomatch (name val : List Char) (ch : Char) (rest : List Char)
    (hm : phMatch name (ch :: rest) = none) :
    ∀ f (preRev : List Char), (ch :: rest).length ≤ f →
      replaceGo name val f preRev (ch :: rest)
        = ch :: replaceGo name val rest.length (ch :: preRev) rest := by
  intro f preRev hf
  cases f with
  | zero => simp at hf
  | succ b =>
    simp only [replaceGo, hm]
    simp only [List.length_cons] at hf
    rw [replaceGo_congr name val b rest.length (ch :: preRev) rest (by omega) (Nat.le_refl _)]

/-- Stepping rule at a matching head: emit the GetSubstitution expansion of
the replacement (which is not rescanned) and continue after the matched
segment. -/
theorem replaceGo_match (name val matched tail : List Char) (l : List Char)
    (hm : phMatch name l = some (matched, tail)) :
    ∀ f (preRev : List Char), l.length ≤ f →
      replaceGo name val f preRev l
        = dollarSubst matched preRev.reverse tail val
            ++ replaceGo name val tail.length (matched.reverse ++ preRev) tail := by
  intro f preRev hf
  cases l with
  | nil => simp [phMatch] at hm
  | cons ch rest =>
    cases f with
    | zero => simp at hf
    | succ b =>
      simp only [replaceGo, hm]
      have hlt := phMatch_length name (ch :: rest) (matched, tail) hm
      simp only [List.length_cons] at hf hlt
      rw [replaceGo_congr name val b tail.length (matched.reverse ++ preRev) tail
        (by omega) (Nat.le_refl _)]

/-- A literal is stripped from itself plus a remainder. -/
theorem stripLit_self : ∀ p x : List Char, stripLit p (p ++ x) = some x := by
  intro p
  induction p with
  | nil => intro x; rfl
  | cons ch cs ih => intro x; simp [stripLit, ih]

/-- No placeholder match can start at a character other than an opening
brace. -/
theorem phMatch_head_ne (name : List Char) (ch : Char) (l : List Char)
    (h : ch ≠ '{') : phMatch name (ch :: l) = none := by
  simp only [phMatch]
  split
  · rename_i heq
    injection heq with h1 _
    exact absurd h1 h
  · rfl

/-- The placeholder pattern matches exactly at a canonical occurrence
`{{name}}` when the name starts with a non-whitespace character; the matched
substring is the occurrence itself. -/
theorem phMatch_at (n0 : Char) (nr rest : List Char) (hn0 : isWsChar n0 = false) :
    phMatch (n0 :: nr) ('{' :: '{' :: ((n0 :: nr) ++ '}' :: '}' :: rest))
      = some ('{' :: '{' :: ((n0 :: nr) ++ ['}', '}']), rest) := by
  simp only [phMatch, List.cons_append, List.dropWhile_cons, List.takeWhile_cons, hn0,
    Bool.false_eq_true, if_false]
  rw [show (n0 :: (nr ++ '}' :: '}' :: rest)) = (n0 :: nr) ++ ('}' :: '}' :: rest) from rfl,
    stripLit_self]
  simp [List.dropWhile_cons, List.takeWhile_cons, isWsChar]

/-- The scan copies a brace-free prefix unchanged and continues after it with
the prefix accumulated. -/
theorem replaceGo_skip : ∀ (pre : List Char), (∀ ch ∈ pre, ch ≠ '{') →
    ∀ (name val l preRev : List Char),
      replaceGo name val (pre ++ l).length preRev (pre ++ l)
        = pre ++ replaceGo name val l.length (pre.reverse ++ preRev) l := by
  intro pre
  induction pre with
  | nil => intro _ name val l preRev; simp
  | cons ch p ih =>
    intro hpre name val l preRev
    have hch : ch ≠ '{' := hpre ch (List.mem_cons_self ch p)
    have hm := phMatch_head_ne name ch (p ++ l) hch
    rw [List.cons_append,
      replaceGo_nomatch name val ch (p ++ l) hm _ preRev (Nat.le_refl _),
      ih (fun c hc => hpre c (List.mem_cons_of_mem _ hc)) name val l (ch :: preRev),
      List.cons_append, List.reverse_cons, List.append_assoc]
    rfl

/-- A brace-free list is left entirely unchanged by the scan. -/
theorem replaceGo_all_nomatch : ∀ l : List Char, (∀ ch ∈ l, ch ≠ '{') →
    ∀ name val preRev : List Char, replaceGo name val l.length preRev l = l := by
  intro l
  induction l with
  | nil => intro _ name val preRev; rfl
  | cons ch p ih =>
    intro h name val preRev
    rw [replaceGo_nomatch name val ch p
        (phMatch_head_ne name ch p (h ch (List.mem_cons_self ch p))) _ preRev (Nat.le_refl _),
      ih (fun c hc => h c (List.mem_cons_of_mem _ hc)) name val (ch :: preRev)]

/-- GetSubstitution leaves a dollar-free replacement untouched. -/
theorem dollarSubst_id : ∀ (val : List Char), (∀ ch ∈ val, ch ≠ '$') →
    ∀ m b a : List Char, dollarSubst m b a val = val := by
  intro val
  induction val with
  | nil => intro _ m b a; rfl
  | cons c rest ih =>
    intro h m b a
    have hc : c ≠ '$' := h c (List.mem_cons_self _ _)
    rw [dollarSubst.eq_def]
    split
    · rename_i heq
      exact absurd heq (by simp)
    · rename_i heq
      injection heq with h1 _
      exact absurd h1 hc
    · rename_i c2 rest2 heq
      injection heq with h1 h2
      subst h1
      subst h2
      rw [ih (fun x hx => h x (List.mem_cons_of_mem _ hx)) m b a]

/-- The decimal digit characters are never a dollar sign. -/
theorem digitChar_ne_dollar (m : Nat) : Nat.digitChar m ≠ '$' := by
  by_cases h : m < 16
  · interval_cases m <;> decide
  · unfold Nat.digitChar
    repeat rw [if_neg (by omega)]
    decide

/-- The characters produced by the decimal printer are digits (or come from
the accumulator). -/
theorem toDigitsCore_ne_dollar : ∀ (fuel b n : Nat) (acc : List Char),
    (∀ c ∈ acc, c ≠ '$') → ∀ c ∈ Nat.toDigitsCore b fuel n acc, c ≠ '$' := by
  intro fuel
  induction fuel with
  | zero =>
    intro b n acc hacc c hc
    exact hacc c (by simpa [Nat.toDigitsCore] using hc)
  | succ f ih =>
    intro b n acc hacc c hc
    simp only [Nat.toDigitsCore] at hc
    by_cases hnb : n / b = 0
    · rw [if_pos hnb] at hc
      rcases List.mem_cons.mp hc with h | h
      · rw [h]; exact digitChar_ne_dollar _
      · exact hacc c h
    · rw [if_neg hnb] at hc
      refine ih b (n / b) _ ?_ c hc
      intro x hx
      rcases List.mem_cons.mp hx with h | h
      · rw [h]; exact digitChar_ne_dollar _
      · exact hacc x h

/-- A natural number's decimal form contains no dollar sign. -/
theorem natRepr_ne_dollar (m : Nat) : ∀ c ∈ (Nat.repr m).data, c ≠ '$' := by
  intro c hc
  have : c ∈ Nat.toDigitsCore 10 (m + 1) m [] := by
    simpa [Nat.repr, Nat.toDigits, List.asString] using hc
  exact toDigitsCore_ne_dollar (m + 1) 10 m [] (by simp) c this

/-- An integer's decimal form contains no dollar sign. -/
theorem toString_int_ne_dollar (n : Int) : ∀ c ∈ (toString n).data, c ≠ '$' := by
  cases n with
  | ofNat m => exact natRepr_ne_dollar m
  | negSucc m =>
    intro c hc
    rw [show toString (Int.negSucc m) = "-" ++ toString (Nat.succ m) from rfl,
      String.data_append] at hc
    rcases List.mem_append.mp hc with h | h
    · simp only [show ("-" : String).data = ['-'] from rfl, List.mem_singleton] at h
      rw [h]; decide
    · exact natRepr_ne_dollar _ c h

/-- Interpolation of a single literal-fragment parameter is one global
replace. -/
theorem interpolateE_single_simple (rx : RegexHost) (t o : String) (r : PVal)
    (h : simpleName o = true) :
    interpolateE rx t (some [(o, r)]) = .ok (replacePH t o (stringifyP r)) := by
  simp [interpolateE, interpLoop, replaceStep, h]

/-- A single canonical placeholder occurrence between brace-free context,
replaced with a dollar-free value. -/
theorem replacePH_single (a c nm v : String) (n0 : Char) (nr : List Char)
    (hnm : nm.data = n0 :: nr) (hw : isWsChar n0 = false)
    (ha : ∀ ch ∈ a.data, ch ≠ '{') (hc : ∀ ch ∈ c.data, ch ≠ '{')
    (hv : ∀ ch ∈ v.data, ch ≠ '$') :
    replacePH (a ++ "\x7b\x7b" ++ nm ++ "\x7d\x7d" ++ c) nm v = a ++ v ++ c := by
  apply String.ext
  show replaceGo nm.data v.data _ _ _ = _
  simp only [String.data_append, List.append_assoc,
    show ("\x7b\x7b" : String).data = ['{', '{'] from rfl,
    show ("\x7d\x7d" : String).data = ['}', '}'] from rfl, List.cons_append, List.nil_append]
  rw [replaceGo_skip a.data ha, hnm,
    replaceGo_match _ _ _ _ _ (phMatch_at n0 nr _ hw) _ _ (Nat.le_refl _),
    dollarSubst_id v.data hv,
    replaceGo_all_nomatch c.data hc]

/-- Counterexample to claim C3 as stated: a string parameter value does not
always pass through unchanged — the host replace expands the
dollar-substitution sequence `$&` to the matched placeholder text, so
interpolating `{{x}}` with the value `$&` yields `{{x}}`, not `$&`. -/
theorem c3_counterexample :
    interpolateE rxUnused "\x7b\x7bx\x7d\x7d" (some [("x", .pstr "$&")])
      = .ok "\x7b\x7bx\x7d\x7d"
  ∧ ("\x7b\x7bx\x7d\x7d" : String) ≠ "$&" :=
  ⟨rfl, by decide⟩

/-- Amended claim C3: interpolation stringifies each supplied parameter —
null and undefined to the empty string, booleans to their literal textual
form, numbers to their decimal form — and a string value passes through the
host replace's dollar-substitution, so it reaches the output unchanged
whenever it contains no dollar sign; every occurrence of the same
placeholder is replaced independently with that same value: for any
brace-free contexts `a`, `b`, `c` and a name in the literal regex fragment,
both occurrences of the placeholder receive the stringified value. -/
theorem c3_interpolation_stringify_and_repeat (rx : RegexHost) (v : PVal)
    (s0 : String) (i : Int)
    (a b c nm : String) (n0 : Char) (nr : List Char)
    (hnm : nm.data = n0 :: nr) (hsimple : simpleName nm = true)
    (ha : ∀ ch ∈ a.data, ch ≠ '{') (hb : ∀ ch ∈ b.data, ch ≠ '{')
    (hc : ∀ ch ∈ c.data, ch ≠ '{')
    (hv : ∀ ch ∈ (stringifyP v).data, ch ≠ '$') :
    stringifyP (.pstr s0) = s0
  ∧ stringifyP (.pnum i) = toString i
  ∧ stringifyP (.pbool true) = "true"
  ∧ stringifyP (.pbool false) = "false"
  ∧ stringifyP .pnull = ""
  ∧ stringifyP .pundef = ""
  ∧ interpolateE rx
      (a ++ "\x7b\x7b" ++ nm ++ "\x7d\x7d" ++ b ++ "\x7b\x7b" ++ nm ++ "\x7d\x7d" ++ c)
      (some [(nm, v)])
      = .ok (a ++ stringifyP v ++ b ++ stringifyP v ++ c) := by
  have hall : ∀ x ∈ nm.data, regexMeta x = false ∧ isWsChar x = false := by
    simpa [simpleName] using hsimple
  have hw : isWsChar n0 = false :=
    (hall n0 (by rw [hnm]; exact List.mem_cons_self _ _)).2
  refine ⟨rfl, rfl, rfl, rfl, rfl, rfl, ?_⟩
  rw [interpolateE_single_simple rx _ nm v hsimple]
  refine congrArg Except.ok ?_
  apply String.ext
  show replaceGo nm.data (stringifyP v).data _ _ _ = _
  simp only [String.data_append, List.append_assoc,
    show ("\x7b\x7b" : String).data = ['{', '{'] from rfl,
    show ("\x7d\x7d" : String).data = ['}', '}'] from rfl, List.cons_append, List.nil_append]
  rw [replaceGo_skip a.data ha, hnm,
    replaceGo_match _ _ _ _ _ (phMatch_at n0 nr _ hw) _ _ (Nat.le_refl _),
    dollarSubst_id (stringifyP v).data hv,
    replaceGo_skip b.data hb,
    replaceGo_match _ _ _ _ _ (phMatch_at n0 nr _ hw) _ _ (Nat.le_refl _),
    dollarSubst_id (stringifyP v).data hv,
    replaceGo_all_nomatch c.data hc]

/-- Witness for the amended C3, at a concrete two-occurrence template with a
dollar-free string value. -/
theorem c3_witness :
    stringifyP (.pstr "West") = "West"
  ∧ stringifyP (.pnum 7) = toString (7 : Int)
  ∧ stringifyP (.pbool true) = "true"
  ∧ stringifyP (.pbool false) = "false"
  ∧ stringifyP .pnull = ""
  ∧ stringifyP .pundef = ""
  ∧ interpolateE rxUnused
      ("Hi " ++ "\x7b\x7b" ++ "name" ++ "\x7d\x7d" ++ " and " ++ "\x7b\x7b" ++ "name" ++ "\x7d\x7d" ++ "!")
      (some [("name", .pstr "West")])
      = .ok ("Hi " ++ stringifyP (.pstr "West") ++ " and " ++ stringifyP (.pstr "West") ++ "!") :=
  c3_interpolation_stringify_and_repeat rxUnused (.pstr "West") "West" 7
    "Hi " " and " "!" "name" 'n' ['a', 'm', 'e'] rfl (by decide)
    (by decide) (by decide) (by decide) (by decide)

/-- The slot pick of `A` on a registry binding one Plural Node under a
top-level key, for an arbitrary count: the zero-label short-circuit first,
then the chosen category's defined slot, else the `other` slot. -/
theorem aResolve_pluralPick (sel : String → Int → String) (loc : String)
    (s : JsFields) (hs : isPluralFields s = true) (m : Int) :
    aResolve sel [(loc, .fcons "items" (.vobj s) .fnil)] loc "items"
      (some [("count", .pnum m)])
      = (match (if pluralCat sel loc m = "zero" then definedGet s "zero" else none) with
         | some z => some z
         | none =>
           match definedGet s (pluralCat sel loc m) with
           | some d => some d
           | none => definedGet s "other") := by
  simp [aResolve, getReg, splitDot, splitDotAux, aWalk, getOwn, hs, getCount, pLookup]

/-- Claim C2: for every Plural Node and numeric count, a count of exactly
zero selects the literal `zero` label without consulting the host
categorizer, any other count asks the host categorizer with the absolute
value; the chosen category's slot is used when present and defined, else
the node's `other` slot (after the zero-label short-circuit, which uses a
present `zero` slot); and the count interpolated into the output is the
original signed count — in the scenario node without a `zero` slot,
`t('items', \x7bcount: 0\x7d)` yields `"0 items"` and a nonzero count `n`
yields the signed `n` in the chosen slot's text. -/
theorem c2_plural_zero_override_and_signed_count (rx : RegexHost)
    (sel : String → Int → String) (loc : String) (n : Int) (hn : n ≠ 0)
    (s : JsFields) (hs : isPluralFields s = true) :
    pluralCat sel loc 0 = "zero"
  ∧ pluralCat sel loc n = sel loc |n|
  ∧ (∀ m : Int, aResolve sel [(loc, .fcons "items" (.vobj s) .fnil)] loc "items"
      (some [("count", .pnum m)])
      = (match (if pluralCat sel loc m = "zero" then definedGet s "zero" else none) with
         | some z => some z
         | none =>
           match definedGet s (pluralCat sel loc m) with
           | some d => some d
           | none => definedGet s "other"))
  ∧ (∀ z, definedGet s "zero" = some z →
      aResolve sel [(loc, .fcons "items" (.vobj s) .fnil)] loc "items"
        (some [("count", .pnum 0)]) = some z)
  ∧ translateKey rx sel stC2 "items" (some [("count", .pnum 0)]) = (.ok "0 items", [])
  ∧ translateKey rx sel stC2 "items" (some [("count", .pnum n)])
      = (.ok (if sel "en" |n| = "one" then toString n ++ " item"
              else toString n ++ " items"), []) := by
  refine ⟨rfl, by simp [pluralCat, hn], aResolve_pluralPick sel loc s hs, ?_, rfl, ?_⟩
  · intro z hz
    rw [aResolve_pluralPick sel loc s hs 0]
    simp [pluralCat, hz]
  · have hpick := aResolve_pluralPick sel "en" itemsNode (by decide) n
    have hpc : pluralCat sel "en" n = sel "en" |n| := by simp [pluralCat, hn]
    rw [hpc] at hpick
    by_cases h1 : sel "en" |n| = "one"
    · have ha : aResolve sel stC2.c stC2.f (jsTrim "items") (some [("count", PVal.pnum n)])
          = some (.vstr "\x7b\x7bcount\x7d\x7d item") := by
        show aResolve sel [("en", JsFields.fcons "items" (JsVal.vobj itemsNode) JsFields.fnil)]
          "en" "items" (some [("count", PVal.pnum n)]) = _
        rw [hpick, h1]
        rfl
      rw [translateKey_of_aResolve_vstr rx sel stC2 "items" _ _ (by decide) (by rfl) ha,
        if_pos h1]
      exact congrArg (fun x => (x, ([] : List (String × String)))) (by
        rw [interpolateE_single_simple rx _ "count" (.pnum n) (by decide)]
        exact congrArg Except.ok (replacePH_single "" " item" "count" (toString n) 'c'
          "ount".data rfl (by decide) (by decide) (by decide) (toString_int_ne_dollar n)))
    · have ha : aResolve sel stC2.c stC2.f (jsTrim "items") (some [("count", PVal.pnum n)])
          = some (.vstr "\x7b\x7bcount\x7d\x7d items") := by
        show aResolve sel [("en", JsFields.fcons "items" (JsVal.vobj itemsNode) JsFields.fnil)]
          "en" "items" (some [("count", PVal.pnum n)]) = _
        rw [hpick]
        by_cases h2 : sel "en" |n| = "other"
        · rw [h2]
          rfl
        · have e1 : ("one" = sel "en" |n|) = False := eq_false (fun h => h1 h.symm)
          have e2 : ("other" = sel "en" |n|) = False := eq_false (fun h => h2 h.symm)
          have hdg : definedGet itemsNode (sel "en" |n|) = none := by
            simp [definedGet, itemsNode, fieldsOf, getOwn, e1, e2]
          simp only [show definedGet itemsNode "zero" = none from rfl, ite_self, hdg]
          rfl
      rw [translateKey_of_aResolve_vstr rx sel stC2 "items" _ _ (by decide) (by rfl) ha,
        if_neg h1]
      exact congrArg (fun x => (x, ([] : List (String × String)))) (by
        rw [interpolateE_single_simple rx _ "count" (.pnum n) (by decide)]
        exact congrArg Except.ok (replacePH_single "" " items" "count" (toString n) 'c'
          "ount".data rfl (by decide) (by decide) (by decide) (toString_int_ne_dollar n)))

/-- Witness for C2, at the scenario node, the all-`other` categorizer and the
signed count `-2`. -/
theorem c2_witness :
    (-2 : Int) ≠ 0
  ∧ isPluralFields itemsNode = true
  ∧ (pluralCat selOther "en" 0 = "zero"
  ∧ pluralCat selOther "en" (-2) = selOther "en" |(-2 : Int)|
  ∧ (∀ m : Int, aResolve selOther
      [("en", .fcons "items" (.vobj itemsNode) .fnil)] "en" "items"
      (some [("count", .pnum m)])
      = (match (if pluralCat selOther "en" m = "zero"
                then definedGet itemsNode "zero" else none) with
         | some z => some z
         | none =>
           match definedGet itemsNode (pluralCat selOther "en" m) with
           | some d => some d
           | none => definedGet itemsNode "other"))
  ∧ (∀ z, definedGet itemsNode "zero" = some z →
      aResolve selOther [("en", .fcons "items" (.vobj itemsNode) .fnil)] "en" "items"
        (some [("count", .pnum 0)]) = some z)
  ∧ translateKey rxUnused selOther stC2 "items" (some [("count", .pnum 0)])
      = (.ok "0 items", [])
  ∧ translateKey rxUnused selOther stC2 "items" (some [("count", .pnum (-2))])
      = (.ok (if selOther "en" |(-2 : Int)| = "one"
              then toString (-2 : Int) ++ " item"
              else toString (-2 : Int) ++ " items"), [])) :=
  ⟨by decide, by decide,
   c2_plural_zero_override_and_signed_count rxUnused selOther "en" (-2)
     (by decide) itemsNode (by decide)⟩
